import Mathlib

/-!
Verification development for the concurrent POSIX crawler (`crawler.go`).

The Go source is shallowly embedded below.  Pure string manipulation
(`path.Join`, `path.Clean`, `filepath.Dir`, `filepath.Base`,
`strings.TrimSpace`, `strings.Join`) is implemented character-by-character
over `String.data` so that every definition reduces inside the kernel.
The filesystem is modelled as a finite association list from (clean,
absolute) path strings to file node types; `os.Lstat`, `os.Readlink` and
`readDir` become lookups in that list.  The traversal (`crawlDir`) is
embedded as a sequential state-passing function: the Go version fans
directory visits out over goroutines, but the set of emitted records and
recorded errors per visited directory is the same, and the concurrency
bound itself is modelled separately as a small transition system that
mirrors the buffered-channel token discipline (`concLimit`).
Unbounded recursions in Go (the symlink-resolution loop and the directory
recursion) take an explicit fuel parameter; theorems below show the fuel
chosen by the wrapper definitions is sufficient.
-/

set_option autoImplicit false

namespace Crawler

/-! ### Character-level string helpers -/

/-- Split a character list on a separator character.  Mirrors the element
decomposition performed by Go `path.Clean` on `/`-separated paths. -/
def splitCh (sep : Char) : List Char → List (List Char)
  | [] => [[]]
  | c :: cs =>
    let r := splitCh sep cs
    if c = sep then [] :: r
    else
      match r with
      | h :: t => (c :: h) :: t
      | [] => [[c]]

/-- Join character lists with a separator list. -/
def joinWith (sep : List Char) : List (List Char) → List Char
  | [] => []
  | [x] => x
  | x :: xs => x ++ sep ++ joinWith sep xs

/-- Go `path.Clean` element processing: drop empty and `.` elements, let
`..` pop a previous element (or be dropped at the root). -/
def cleanAux (rooted : Bool) : List (List Char) → List (List Char) → List (List Char)
  | [], acc => acc.reverse
  | e :: rest, acc =>
    if e = [] ∨ e = ['.'] then cleanAux rooted rest acc
    else if e = ['.', '.'] then
      match acc with
      | [] => if rooted then cleanAux rooted rest [] else cleanAux rooted rest [['.', '.']]
      | a :: as =>
        if a = ['.', '.'] then cleanAux rooted rest (['.', '.'] :: a :: as)
        else cleanAux rooted rest as
    else cleanAux rooted rest (e :: acc)

/-- Go `path.IsAbs` / `filepath.IsAbs` on slash-separated paths. -/
def goIsAbs (p : String) : Bool :=
  match p.data with
  | '/' :: _ => true
  | _ => false

/-- Go `path.Clean` (equivalently `filepath.Clean` on POSIX). -/
def goClean (p : String) : String :=
  if p.data = [] then "."
  else
    let rooted := goIsAbs p
    let parts := cleanAux rooted (splitCh '/' p.data) []
    let body := joinWith ['/'] parts
    if rooted then String.mk ('/' :: body)
    else if body = [] then "." else String.mk body

/-- Go `path.Join` of two elements: empty elements are dropped, the rest is
joined with `/` and cleaned; all-empty input yields the empty string. -/
def goJoin (a b : String) : String :=
  if a.data = [] ∧ b.data = [] then ""
  else if a.data = [] then goClean b
  else if b.data = [] then goClean a
  else goClean (String.mk (a.data ++ '/' :: b.data))

/-- Everything up to (excluding) the final `/` of a character list, or
none when there is no `/`. -/
def dropLastElem : List Char → Option (List Char)
  | [] => none
  | c :: cs =>
    match dropLastElem cs with
    | some r => some (c :: r)
    | none => if c = '/' then some [] else none

/-- Go `filepath.Dir`: the path up to and including the final separator,
cleaned; a path without separator has directory `.`. -/
def goDir (p : String) : String :=
  match dropLastElem p.data with
  | none => "."
  | some r => goClean (String.mk (r ++ ['/']))

/-- The part of a character list after the final `/`. -/
def afterLastSlash : List Char → List Char
  | [] => []
  | c :: cs =>
    match dropLastElem cs with
    | some _ => afterLastSlash cs
    | none => if c = '/' then cs else c :: cs

/-- Drop trailing separator characters. -/
def dropTrailingSlashes (l : List Char) : List Char :=
  (l.reverse.dropWhile (fun c => c = '/')).reverse

/-- Go `filepath.Base`: strip trailing slashes, then take the part after
the final slash; empty input gives `.`, an all-slash input gives `/`.
`os.Lstat(p)` reports `Name() = filepath.Base(p)`. -/
def goBase (p : String) : String :=
  if p.data = [] then "."
  else
    let q := dropTrailingSlashes p.data
    if q = [] then "/"
    else String.mk (afterLastSlash q)

/-- Go `unicode.IsSpace` restricted to the ASCII space characters that
`strings.TrimSpace` strips. -/
def isSpaceCh (c : Char) : Bool :=
  c = ' ' ∨ c = '\t' ∨ c = '\n' ∨ c = '\x0b' ∨ c = '\x0c' ∨ c = '\r'

/-- Go `strings.TrimSpace`. -/
def goTrimSpace (s : String) : String :=
  String.mk (((s.data.dropWhile isSpaceCh).reverse.dropWhile isSpaceCh).reverse)

/-- Go `strings.Join` with a separator string. -/
def goStringsJoin (l : List String) (sep : String) : String :=
  String.mk (joinWith sep.data (l.map String.data))

/-! ### Data model: stat records, node types, the filesystem -/

/-- The fields of `syscall.Stat_t` read by `crawlDir` (line 129-138). -/
structure StatT where
  ino : Nat
  size : Int
  uid : Nat
  gid : Nat
  mtimSec : Int
  mtimNsec : Nat
  ctimSec : Int
  ctimNsec : Nat
deriving DecidableEq, Repr

/-- Go `time.Time` as far as the crawler uses it: a Unix instant plus the
zone offset that formatting applies.  `time.Unix` yields the local zone
(offset given by the environment); `.UTC()` sets the offset to zero. -/
structure GoTime where
  sec : Int
  nsec : Nat
  offsetSec : Int
deriving DecidableEq, Repr

/-- Go `time.Unix(sec, nsec).UTC()` as used on lines 136-137. -/
def timeUnixUTC (sec : Int) (nsec : Nat) : GoTime :=
  { sec := sec, nsec := nsec, offsetSec := 0 }

/-- The file-node classification relevant to `fi.Mode()`: directory,
regular file (with its stat), symbolic link (with its target string), and
everything else (device, socket, fifo, ...). -/
inductive FType where
  | dir : FType
  | regular : StatT → FType
  | symlink : String → FType
  | other : FType
deriving DecidableEq, Repr

/-- Go `fileMode & os.ModeSymlink == os.ModeSymlink` (line 96). -/
def isSymlinkT : FType → Bool
  | .symlink _ => true
  | _ => false

/-- Go `fileMode.IsDir()` (line 112). -/
def isDirT : FType → Bool
  | .dir => true
  | _ => false

/-- Go `fileMode.IsRegular()` (line 121). -/
def isRegularT : FType → Bool
  | .regular _ => true
  | _ => false

/-- A finite filesystem: an association list from full path strings to
node types.  Well-formedness (clean absolute keys, one entry per path,
parent/child coherence) is imposed by the hypotheses of the theorems that
need it. -/
structure FS where
  entries : List (String × FType)
deriving DecidableEq

/-- The list of paths present in the filesystem. -/
def FS.keys (fs : FS) : List String := fs.entries.map Prod.fst

/-- `os.Lstat`: look the path itself up without following links. -/
def lstat (fs : FS) (p : String) : Option FType :=
  (fs.entries.find? (fun e => e.1 == p)).map Prod.snd

/-- `os.Readlink` (lines 158, 184): succeeds exactly on symlinks. -/
def readlink (fs : FS) (p : String) : Except String String :=
  match lstat fs p with
  | some (.symlink t) => .ok t
  | some _ => .error ("readlink " ++ p ++ ": invalid argument")
  | none => .error ("readlink " ++ p ++ ": no such file or directory")

/-- `readDir` (lines 144-153): list a directory's entries as
`(name, mode)` pairs, where the name is the base name; any non-directory
or missing path yields the `os.Open`/`Readdir` error. -/
def readDir (fs : FS) (p : String) : Except String (List (String × FType)) :=
  match lstat fs p with
  | some .dir =>
      .ok ((fs.entries.filter (fun e => goDir e.1 == p && e.1 != p)).map
        (fun e => (goBase e.1, e.2)))
  | some _ => .error ("open " ++ p ++ ": not a directory")
  | none => .error ("open " ++ p ++ ": no such file or directory")

/-! ### Symlink resolution (`resolveSymlink`, lines 155-199) -/

/-- One candidate update step: given the tracked containing directory and
a link target, produce the next candidate path and tracked directory
(lines 162-166 and 188-192).  An absolute target is taken as is and the
tracked directory is left unchanged; a relative target is joined to the
tracked directory, cleaned, and the tracked directory becomes its
`filepath.Dir`. -/
def stepCand (dirP : String) (target : String) : String × String :=
  if goIsAbs target then (target, dirP)
  else
    let f := goClean (goJoin dirP target)
    (f, goDir f)

/-- The dereferencing loop (lines 171-197) with explicit fuel and the
seen-set threaded as a list.  `none` means the fuel ran out;
`resolveSymlink_total` below shows the fuel chosen by `resolveSymlink`
never does. -/
def resolveLoop (fs : FS) (linkName : String) :
    Nat → List String → String → String → Option (Except String (FType × String × String))
  | 0, _, _, _ => none
  | fuel + 1, seen, fileName, filePath =>
    match lstat fs fileName with
    | none => some (.error ("lstat " ++ fileName ++ ": no such file or directory"))
    | some fi =>
      if fileName ∈ seen then
        some (.error ("circular symlink: " ++ linkName))
      else
        match fi with
        | .symlink t =>
          resolveLoop fs linkName fuel (fileName :: seen)
            (stepCand filePath t).1 (stepCand filePath t).2
        | _ => some (.ok (fi, goBase fileName, filePath))

/-- `resolveSymlink(currPath, linkName)` (lines 155-199).  Returns the
final non-symlink node, its base name (`fi.Name()`), and the tracked
containing directory.  The loop fuel is one more than the number of
filesystem entries, which `resolveSymlink_total` proves sufficient. -/
def resolveSymlink (fs : FS) (currPath linkName : String) :
    Option (Except String (FType × String × String)) :=
  match readlink fs (goJoin currPath linkName) with
  | .error e => some (.error e)
  | .ok target =>
    resolveLoop fs (goJoin currPath linkName) (fs.entries.length + 1) []
      (stepCand currPath target).1 (stepCand currPath target).2

/-- `resolveSymlink` with the (provably unreachable) fuel-exhaustion case
collapsed into an error, for use inside `crawlDir`. -/
def resolveSymlinkTotal (fs : FS) (currPath linkName : String) :
    Except String (FType × String × String) :=
  match resolveSymlink fs currPath linkName with
  | some r => r
  | none => .error "resolveSymlink: fuel exhausted"

/-- The candidate sequence the loop would traverse, described externally:
state `0` is the candidate right after the initial `Readlink` of the
original link, state `n+1` dereferences state `n`.  Used to state the
circular-symlink claim. -/
def candSeq (fs : FS) (currPath linkName : String) : Nat → Option (String × String)
  | 0 =>
    match readlink fs (goJoin currPath linkName) with
    | .error _ => none
    | .ok target => some (stepCand currPath target)
  | n + 1 =>
    match candSeq fs currPath linkName n with
    | none => none
    | some st =>
      match lstat fs st.1 with
      | some (.symlink t) => some (stepCand st.2 t)
      | _ => none

/-- The candidate path at step `k` (empty when the sequence stopped). -/
def candName (fs : FS) (currPath linkName : String) (k : Nat) : String :=
  match candSeq fs currPath linkName k with
  | some st => st.1
  | none => ""

/-- The tracked containing directory at step `k` of the candidate
sequence. -/
def candDirName (fs : FS) (currPath linkName : String) (k : Nat) : String :=
  match candSeq fs currPath linkName k with
  | some st => st.2
  | none => ""

/-- The seen-set contents after `k` loop iterations: the first `k`
candidate paths, most recent first. -/
def seenListRev (fs : FS) (currPath linkName : String) (k : Nat) : List String :=
  ((List.range k).map (candName fs currPath linkName)).reverse

/-! ### Records and their serialization (`PosixInfo`, `outputResult`) -/

/-- The `PosixInfo` struct (lines 18-26).  Field names follow the Go
struct; the JSON key of each field is fixed by its struct tag and
reproduced in `posixInfoFields`. -/
structure PosixInfo where
  filePath : String
  ino : Nat
  size : Int
  uid : Nat
  gid : Nat
  mtime : GoTime
  ctime : GoTime
deriving DecidableEq, Repr

/-- Record construction from a stat (lines 130-138). -/
def mkPosixInfo (filePath : String) (stat : StatT) : PosixInfo :=
  { filePath := filePath
    ino := stat.ino
    size := stat.size
    uid := stat.uid
    gid := stat.gid
    mtime := timeUnixUTC stat.mtimSec stat.mtimNsec
    ctime := timeUnixUTC stat.ctimSec stat.ctimNsec }

/-- Decimal digits of a natural number. -/
def natDigits (n : Nat) : List Char :=
  (Nat.toDigits 10 n)

/-- Zero-padded decimal rendering of width `w`. -/
def padNat (w : Nat) (n : Nat) : List Char :=
  let d := natDigits n
  List.replicate (w - d.length) '0' ++ d

/-- Civil date from a day count relative to 1970-01-01 (the standard
days-from-civil inverse used by Go's `time` package internals). -/
def civilFromDays (z : Int) : Int × Nat × Nat :=
  let z' := z + 719468
  let era : Int := Int.tdiv (if 0 ≤ z' then z' else z' - 146096) 146097
  let doe : Nat := (z' - era * 146097).toNat
  let yoe : Nat := (doe - doe / 1460 + doe / 36524 - doe / 146096) / 365
  let y : Int := (yoe : Int) + era * 400
  let doy : Nat := doe - (365 * yoe + yoe / 4 - yoe / 100)
  let mp : Nat := (5 * doy + 2) / 153
  let d : Nat := doy - (153 * mp + 2) / 5 + 1
  let m : Nat := if mp < 10 then mp + 3 else mp - 9
  (if m ≤ 2 then y + 1 else y, m, d)

/-- Fractional-second suffix of RFC 3339 Nano: empty when zero,
otherwise a dot plus the nanoseconds with trailing zeros removed. -/
def nanoSuffix (nsec : Nat) : List Char :=
  if nsec = 0 then []
  else '.' :: ((padNat 9 nsec).reverse.dropWhile (fun c => c = '0')).reverse

/-- Year rendering; RFC 3339 years in range are zero-padded to width 4. -/
def yearChars (y : Int) : List Char :=
  if y < 0 then '-' :: padNat 4 (-y).toNat else padNat 4 y.toNat

/-- Offset suffix of RFC 3339: `Z` at offset zero, `+hh:mm`/`-hh:mm`
otherwise. -/
def offsetSuffix (offsetSec : Int) : List Char :=
  if offsetSec = 0 then ['Z']
  else
    let a := offsetSec.natAbs
    (if 0 ≤ offsetSec then '+' else '-') ::
      (padNat 2 (a / 3600) ++ ':' :: padNat 2 ((a % 3600) / 60))

/-- The date-time body of the RFC 3339 rendering: the instant displayed
in the time's zone, down to the optional fractional seconds. -/
def rfcBody (t : GoTime) : List Char :=
  let disp := t.sec + t.offsetSec
  let days := Int.fdiv disp 86400
  let sod := (disp - 86400 * days).toNat
  let ymd := civilFromDays days
  yearChars ymd.1 ++ '-' :: padNat 2 ymd.2.1 ++ '-' :: padNat 2 ymd.2.2 ++
    'T' :: padNat 2 (sod / 3600) ++ ':' :: padNat 2 (sod % 3600 / 60) ++
    ':' :: padNat 2 (sod % 60) ++ nanoSuffix t.nsec

/-- Go `time.Time.MarshalJSON` body: the RFC 3339 Nano rendering, the
zone rendered as `Z` exactly at offset zero. -/
def formatRFC3339Nano (t : GoTime) : String :=
  String.mk (rfcBody t ++ offsetSuffix t.offsetSec)

/-- A lowercase hexadecimal digit, as `encoding/json` uses
(`hex = "0123456789abcdef"`). -/
def hexDigit (n : Nat) : Char :=
  if n < 10 then Char.ofNat (48 + n) else Char.ofNat (87 + n)

/-- JSON string escaping as Go `encoding/json.Marshal` performs it:
quote, backslash, `\n`/`\r`/`\t`, other control bytes as lowercase-hex
`\u00xx`, the HTML characters as `<`/`>`/`&`, and the
line separators U+2028/U+2029 escaped. -/
def jsonEscapeCh (c : Char) : List Char :=
  if c = '"' then ['\\', '"']
  else if c = '\\' then ['\\', '\\']
  else if c = '\n' then ['\\', 'n']
  else if c = '\r' then ['\\', 'r']
  else if c = '\t' then ['\\', 't']
  else if c = '<' then ['\\', 'u', '0', '0', '3', 'c']
  else if c = '>' then ['\\', 'u', '0', '0', '3', 'e']
  else if c = '&' then ['\\', 'u', '0', '0', '2', '6']
  else if c.toNat < 32 then
    ['\\', 'u', '0', '0', hexDigit (c.toNat / 16), hexDigit (c.toNat % 16)]
  else if c.toNat = 8232 then ['\\', 'u', '2', '0', '2', '8']
  else if c.toNat = 8233 then ['\\', 'u', '2', '0', '2', '9']
  else [c]

/-- A JSON string literal for `s`. -/
def jsonQuote (s : String) : String :=
  String.mk ('"' :: s.data.flatMap jsonEscapeCh ++ ['"'])

/-- Decimal rendering of an integer (Go `%d` for int64). -/
def intChars (i : Int) : String :=
  if i < 0 then String.mk ('-' :: natDigits i.natAbs) else String.mk (natDigits i.natAbs)

/-- The year of the instant as displayed in the time's zone — the value
Go's `Time.MarshalJSON` range-checks before formatting. -/
def rfcYear (t : GoTime) : Int :=
  (civilFromDays (Int.fdiv (t.sec + t.offsetSec) 86400)).1

/-- Go `time.Time.MarshalJSON`: rejects years outside [0, 9999] (RFC 3339
cannot represent them), otherwise emits the quoted RFC 3339 Nano
rendering. -/
def timeMarshalJSON (t : GoTime) : Except String String :=
  if rfcYear t < 0 ∨ 10000 ≤ rfcYear t then
    .error "Time.MarshalJSON: year outside of range [0,9999]"
  else
    .ok ("\"" ++ formatRFC3339Nano t ++ "\"")

/-- The ordered `(json key, rendered value)` pairs `encoding/json`
produces for a `PosixInfo` value whose times marshal successfully: one
pair per struct field in declaration order, keys taken from the struct
tags (lines 18-26); the time values are `Time.MarshalJSON`'s quoted
output used verbatim. -/
def posixInfoFields (i : PosixInfo) : List (String × String) :=
  [("file_path", jsonQuote i.filePath),
   ("inode", String.mk (natDigits i.ino)),
   ("size", intChars i.size),
   ("uid", String.mk (natDigits i.uid)),
   ("gid", String.mk (natDigits i.gid)),
   ("mtime", "\"" ++ formatRFC3339Nano i.mtime ++ "\""),
   ("ctime", "\"" ++ formatRFC3339Nano i.ctime ++ "\"")]

/-- `json.Marshal` of one `PosixInfo` (line 203): the fields are
marshalled in declaration order and a `Time.MarshalJSON` failure aborts
the whole marshal with a wrapped `MarshalerError`. -/
def marshalPosixInfo (i : PosixInfo) : Except String String :=
  match timeMarshalJSON i.mtime with
  | .error e => .error ("json: error calling MarshalJSON for type time.Time: " ++ e)
  | .ok _ =>
    match timeMarshalJSON i.ctime with
    | .error e => .error ("json: error calling MarshalJSON for type time.Time: " ++ e)
    | .ok _ =>
      .ok ("\x7b" ++
        goStringsJoin ((posixInfoFields i).map (fun kv => jsonQuote kv.1 ++ ":" ++ kv.2)) "," ++
        "\x7d")

/-- One printed line (lines 203-204): `out, _ := json.Marshal(info)`
discards the error, in which case `out` is empty and the program prints a
blank line instead of a JSON object. -/
def outputLine (i : PosixInfo) : String :=
  (match marshalPosixInfo i with
   | .ok s => s
   | .error _ => "") ++ "\n"

/-- `outputResult` (lines 201-206): one line per record. -/
def outputResult (l : List PosixInfo) : String :=
  String.mk ((l.map (fun i => (outputLine i).data)).flatten)

/-! ### The traversal (`crawlDir`, `Crawl`) -/

/-- The pattern filter: `pc.pattern != nil && !pc.pattern.MatchString(filePath)`
skips the file (lines 125-127), so a configured pattern must match the full
candidate path and no pattern accepts everything.  The compiled regular
expression is abstracted as its matching predicate. -/
def patMatch (pattern : Option (String → Bool)) (filePath : String) : Bool :=
  match pattern with
  | none => true
  | some re => re filePath

/-- Observable traversal state: records sent to `Outputs` and the error
queue contents.  The out-of-scope serialization goroutine drains
`Outputs` concurrently, so its capacity never gates the traversal; the
error channel is only drained after traversal, so its occupancy is the
number of successfully sent errors. -/
structure CrawlSt where
  outputs : List PosixInfo
  errQ : List String
deriving DecidableEq

/-- The non-blocking error send `select { case pc.Error <- err: default: }`
(lines 84-88 and 99-103) against the capacity-100 channel made on line 42:
the error is dropped when the queue is full. -/
def emitErr (st : CrawlSt) (e : String) : CrawlSt :=
  if st.errQ.length < 100 then { st with errQ := st.errQ ++ [e] } else st

/-- Classification of a (possibly resolved) entry (lines 112-141):
directories are visited, regular files that pass the pattern filter are
emitted, everything else is skipped. -/
def crawlClassify (pattern : Option (String → Bool))
    (visit : String → CrawlSt → CrawlSt)
    (filePath : String) (fm : FType) (st : CrawlSt) : CrawlSt :=
  match fm with
  | .dir => visit filePath st
  | .regular stat =>
    if patMatch pattern filePath then
      { st with outputs := st.outputs ++ [mkPosixInfo filePath stat] }
    else st
  | _ => st

/-- Processing of one directory entry (lines 91-141).  When link-following
is on and the entry is a symlink, it is resolved first; a resolution error
is recorded and the entry skipped, otherwise the resolved node, name and
joined path replace the entry's. -/
def crawlEntry (fs : FS) (pattern : Option (String → Bool)) (followSymlink : Bool)
    (visit : String → CrawlSt → CrawlSt)
    (currPath : String) (st : CrawlSt) (ent : String × FType) : CrawlSt :=
  let filePath := goJoin currPath ent.1
  if followSymlink && isSymlinkT ent.2 then
    match resolveSymlinkTotal fs currPath ent.1 with
    | .error e => emitErr st e
    | .ok r => crawlClassify pattern visit (goJoin r.2.2 r.2.1) r.1 st
  else
    crawlClassify pattern visit filePath ent.2 st

/-- `crawlDir` (lines 79-142) with explicit fuel for the directory
recursion: list the directory (recording the error on failure) and fold
the entry processing over the listing in order. -/
def crawlDir (fs : FS) (pattern : Option (String → Bool)) (followSymlink : Bool) :
    Nat → String → CrawlSt → CrawlSt
  | 0, _, st => st
  | fuel + 1, currPath, st =>
    match readDir fs currPath with
    | .error e => emitErr st e
    | .ok files =>
      files.foldl (crawlEntry fs pattern followSymlink
        (crawlDir fs pattern followSymlink fuel) currPath) st

/-- The records a directory visit emits when started on an empty state
(the state-independent output contribution of `crawlDir`). -/
def dirOut (fs : FS) (pattern : Option (String → Bool)) (followSymlink : Bool)
    (fuel : Nat) (p : String) : List PosixInfo :=
  (crawlDir fs pattern followSymlink fuel p ⟨[], []⟩).outputs

/-- The records one entry of a directory contributes when processed on an
empty state. -/
def entOut (fs : FS) (pattern : Option (String → Bool)) (followSymlink : Bool)
    (fuel : Nat) (currPath : String) (e : String × FType) : List PosixInfo :=
  (crawlEntry fs pattern followSymlink (crawlDir fs pattern followSymlink fuel)
    currPath ⟨[], []⟩ e).outputs

/-- One more than the longest path string in the filesystem; sufficient
fuel for `crawlDir` on well-formed trees because every child path is
strictly longer than its parent's. -/
def maxKeyLen (fs : FS) : Nat :=
  fs.entries.foldr (fun e m => max e.1.length m) 0

/-! Go `fmt.Sprintf` with an empty operand list, as `fmt.Errorf(s)` on
line 73 invokes it on the joined error text.  The embedding follows
`fmt.doPrintf` specialized to zero operands: literal text is copied, `%%`
prints one percent sign, and every other verb — having no operand —
prints `%!<verb>(MISSING)` (or `%!<verb>(BADINDEX)` after an explicit
argument index, `%!(BADWIDTH)`/`%!(BADPREC)` for starred width or
precision, `%!(NOVERB)` for a trailing percent, which also stops
processing). -/

/-- The printf flag characters. -/
def isFmtFlag (c : Char) : Bool :=
  c = '#' ∨ c = '0' ∨ c = '+' ∨ c = '-' ∨ c = ' '

/-- `fmt.parsenum`: consume leading decimal digits; a number growing past
1e6 aborts the scan to the end of the format. -/
def fmtParsenum : List Char → Nat → Bool → Bool × List Char
  | [], _, isnum => (isnum, [])
  | c :: rest, num, isnum =>
    if '0' ≤ c ∧ c ≤ '9' then
      if num > 1000000 then (false, [])
      else fmtParsenum rest (num * 10 + (c.toNat - 48)) true
    else (isnum, c :: rest)

/-- Offset of the first `]`, if any. -/
def findRBracket : List Char → Option Nat
  | [] => none
  | c :: rest => if c = ']' then some 0 else (findRBracket rest).map (· + 1)

/-- `fmt.(*pp).argNumber` with zero operands: a `[...]` argument index is
skipped (`fmt.parseArgNumber` determines how far) and, the index being
unusable, always clears `goodArgNum`.  Returns (still-good, afterIndex,
rest). -/
def fmtArgIndex : List Char → Bool × Bool × List Char
  | '[' :: t =>
    if t.length + 1 < 3 then (false, true, t)
    else
      match findRBracket t with
      | some j => (false, true, t.drop (j + 1))
      | none => (false, true, t)
  | s => (true, false, s)

/-- The width phase: a starred width finds no operand and prints
`%!(BADWIDTH)`; a numeric width after an argument index clears
`goodArgNum`. -/
def fmtWidth (s : List Char) (good afterIndex : Bool) :
    List Char × Bool × Bool × List Char :=
  match s with
  | '*' :: t => ("%!(BADWIDTH)".data, good, false, t)
  | _ =>
    match fmtParsenum s 0 false with
    | (isnum, rest) => ([], good && !(afterIndex && isnum), afterIndex, rest)

/-- The precision phase (entered only when the dot is not the last
character): a preceding argument index clears `goodArgNum`, a second
argument index may follow the dot, and a starred precision finds no
operand and prints `%!(BADPREC)`. -/
def fmtPrec (s : List Char) (good afterIndex : Bool) :
    List Char × Bool × Bool × List Char :=
  match s with
  | '.' :: t =>
    if t = [] then ([], good, afterIndex, s)
    else
      match fmtArgIndex t with
      | (g2, a2, s2) =>
        match s2 with
        | '*' :: u => ("%!(BADPREC)".data, good && !afterIndex && g2, false, u)
        | _ =>
          match fmtParsenum s2 0 false with
          | (_, rest) => ([], good && !afterIndex && g2, a2, rest)
  | _ => ([], good, afterIndex, s)

/-- Processing of one verb (the text after a `%`): returns the emitted
text, the remaining format text, and whether a trailing percent stopped
all processing. -/
def fmtVerbStep (s : List Char) : List Char × List Char × Bool :=
  let s1 := s.dropWhile isFmtFlag
  match fmtArgIndex s1 with
  | (g1, a1, s2) =>
    match fmtWidth s2 g1 a1 with
    | (o2, g2, a2, s3) =>
      match fmtPrec s3 g2 a2 with
      | (o3, g3, a3, s4) =>
        match (if a3 then (g3, s4) else
            match fmtArgIndex s4 with
            | (gx, _, sx) => (g3 && gx, sx)) with
        | (g4, s5) =>
          match s5 with
          | [] => (o2 ++ o3 ++ "%!(NOVERB)".data, [], true)
          | v :: rest =>
            if v = '%' then (o2 ++ o3 ++ ['%'], rest, false)
            else if g4 then
              (o2 ++ o3 ++ '%' :: '!' :: v :: "(MISSING)".data, rest, false)
            else
              (o2 ++ o3 ++ '%' :: '!' :: v :: "(BADINDEX)".data, rest, false)

/-- The outer loop of `fmt.doPrintf` with zero operands: copy literal
text, process each verb.  Each iteration consumes at least one character,
so fuel one beyond the length suffices. -/
def fmtLoop : Nat → List Char → List Char
  | 0, _ => []
  | _ + 1, [] => []
  | fuel + 1, c :: rest =>
    if c = '%' then
      match fmtVerbStep rest with
      | (out, rem, stop) => if stop then out else out ++ fmtLoop fuel rem
    else c :: fmtLoop fuel rest

/-- `fmt.Sprintf(s)` with no operands (the string `fmt.Errorf(s)` builds
its error from). -/
def goSprintfNoOperands (s : String) : String :=
  String.mk (fmtLoop (s.data.length + 1) s.data)

/-- Error aggregation at the end of `Crawl` (lines 66-76):
`fmt.Errorf(strings.Join(errors, "\n"))` treats the newline-joined
collected messages as a printf format string with no operands; success
(`nil`) when none were collected. -/
def aggregateErrors (errs : List String) : Option String :=
  if errs.length > 0 then some (goSprintfNoOperands (goStringsJoin errs "\n"))
  else none

/-- The error-queue contents after a full traversal from `rootPath`. -/
def crawlErrs (fs : FS) (pattern : Option (String → Bool)) (followSymlink : Bool)
    (rootPath : String) : List String :=
  (crawlDir fs pattern followSymlink (maxKeyLen fs + 1) rootPath ⟨[], []⟩).errQ

/-- `Crawl(rootPath)` (lines 55-77), sequentially: run the traversal from
the root on an empty state and aggregate the collected errors.  The
result pairs the emitted records with the returned error. -/
def Crawl (fs : FS) (pattern : Option (String → Bool)) (followSymlink : Bool)
    (rootPath : String) : List PosixInfo × Option String :=
  let st := crawlDir fs pattern followSymlink (maxKeyLen fs + 1) rootPath ⟨[], []⟩
  (st.outputs, aggregateErrors st.errQ)

/-! ### Spec-side reachability predicates (for the exactly-once claim) -/

/-- Does the filesystem list `p` as a directory? -/
def isDirKeyB (fs : FS) (p : String) : Bool :=
  match lstat fs p with
  | some .dir => true
  | _ => false

/-- Is `q` a regular file in the filesystem that passes the pattern
filter? -/
def isRegMatchB (fs : FS) (pattern : Option (String → Bool)) (q : String) : Bool :=
  (match lstat fs q with
   | some (.regular _) => true
   | _ => false) && patMatch pattern q

/-- Fuelled ancestor walk: `d` is `root` itself, or `d` is a directory of
the filesystem whose parent chain (via `filepath.Dir`, strictly length
decreasing) reaches `root`. -/
def reachDirF (fs : FS) (root : String) : Nat → String → Bool
  | 0, d => d == root
  | fuel + 1, d =>
    d == root ||
      (isDirKeyB fs d && decide ((goDir d).length < d.length) &&
        reachDirF fs root fuel (goDir d))

/-- `d` is a directory reachable from `root` through listed directories.
The fuel `d.length + 1` always suffices because each parent step strictly
shortens the path. -/
def reachDirB (fs : FS) (root : String) (d : String) : Bool :=
  reachDirF fs root (d.length + 1) d

/-- The contribution indicator of one directory entry of `p` to the
count of records for path `q`: a regular entry contributes exactly when
it is `q` itself (and `q` matches), a subdirectory entry contributes
exactly when the parent chain from `q` passes through it. -/
def childContrib (fs : FS) (pattern : Option (String → Bool)) (q : String)
    (e : String × FType) : Bool :=
  isRegMatchB fs pattern q &&
    (match e.2 with
     | FType.regular _ => e.1 == q
     | FType.dir => reachDirB fs e.1 (goDir q)
     | _ => false)

/-- No entry of the filesystem is a symbolic link. -/
def noSymlinksB (fs : FS) : Bool :=
  fs.entries.all (fun e => !isSymlinkT e.2)

/-- Every symlink target in the filesystem is a relative path. -/
def allRelTargetsB (fs : FS) : Bool :=
  fs.entries.all (fun e =>
    match e.2 with
    | .symlink t => !goIsAbs t
    | _ => true)

/-- Well-formedness of a modelled filesystem rooted at `root`: one entry
per path, the root is a listed directory, and every non-root path is
coherent with `filepath.Dir`/`filepath.Base` (rejoining its parent and
base gives the path back, and the parent is strictly shorter). -/
def wfFS (fs : FS) (root : String) : Bool :=
  fs.keys.Nodup &&
  isDirKeyB fs root &&
  fs.entries.all (fun e =>
    e.1 == "/" ||
      (goJoin (goDir e.1) (goBase e.1) == e.1 &&
        decide ((goDir e.1).length < e.1.length)))

/-! ### The concurrency-token discipline (`concLimit`) -/

/-- Scheduler state: `inflight` counts goroutines that have sent their
token into `concLimit` but not yet entered `crawlDir` (between lines 115
and 116, or lines 59 and 60 for the root); `running` counts `crawlDir`
executions in progress. -/
structure SchedSt where
  inflight : Nat
  running : Nat
deriving DecidableEq

/-- The buffered send `pc.concLimit <- false` succeeds exactly when the
channel made by `make(chan bool, conc)` (line 44) has spare capacity;
every current holder (pre-start or running) occupies one slot because the
only receive is the deferred one on line 81. -/
def acquireEnabled (conc : Nat) (s : SchedSt) : Bool :=
  s.inflight + s.running < conc

/-- Scheduler events: a token send (lines 59, 115), entry into `crawlDir`
(lines 60, 116), and a visit completing, which runs the deferred receive
releasing the token (line 81). -/
inductive SchedEv where
  | acquire : SchedEv
  | start : SchedEv
  | finish : SchedEv

/-- The transition relation of the token discipline. -/
inductive SchedStep (conc : Nat) : SchedSt → SchedEv → SchedSt → Prop where
  | acquire (s : SchedSt) :
      acquireEnabled conc s = true →
      SchedStep conc s .acquire ⟨s.inflight + 1, s.running⟩
  | start (i r : Nat) :
      SchedStep conc ⟨i + 1, r⟩ .start ⟨i, r + 1⟩
  | finish (i r : Nat) :
      SchedStep conc ⟨i, r + 1⟩ .finish ⟨i, r⟩

/-- States reachable from the idle crawler. -/
inductive SchedReach (conc : Nat) : SchedSt → Prop where
  | init : SchedReach conc ⟨0, 0⟩
  | next {s : SchedSt} {e : SchedEv} {s' : SchedSt} :
      SchedReach conc s → SchedStep conc s e s' → SchedReach conc s'

/-! ### Crawler construction (`NewPosixCrawler`) -/

/-- The crawler configuration record produced by `NewPosixCrawler`
(lines 38-53): the four channel capacities fixed on lines 40-44, the
optional compiled pattern, and the link-following flag. -/
structure PosixCrawler where
  subDirsCap : Nat
  outputsCap : Nat
  errorCap : Nat
  concCap : Nat
  pattern : Option (String → Bool)
  followSymlink : Bool

/-- `NewPosixCrawler(conc, pattern, followSymlink)` (lines 38-53).  Go
panics are modelled as `.error`: `make(chan bool, conc)` panics for a
negative capacity, and `regexp.MustCompile` panics when the non-blank
pattern does not compile; `regexp.Compile` itself is abstracted as a
`compile` parameter returning the matcher or `none` on a syntax error.
The function has no error return in Go, so `.ok` is the only recoverable
outcome. -/
def NewPosixCrawler (compile : String → Option (String → Bool))
    (conc : Int) (pattern : String) (followSymlink : Bool) :
    Except String PosixCrawler :=
  if conc < 0 then .error "makechan: size out of range"
  else
    let base : PosixCrawler :=
      { subDirsCap := 4096, outputsCap := 4096, errorCap := 100,
        concCap := conc.toNat, pattern := none, followSymlink := followSymlink }
    if (goTrimSpace pattern).length > 0 then
      match compile pattern with
      | some re => .ok { base with pattern := some re }
      | none => .error ("regexp: Compile: error parsing regexp: " ++ pattern)
    else .ok base

/-! ### Concrete filesystems used as witnesses and counterexamples -/

/-- A stat record for examples. -/
def stat0 : StatT := ⟨7, 42, 1000, 100, 0, 0, 0, 0⟩

/-- A second stat record for examples. -/
def stat1 : StatT := ⟨8, 5, 1000, 100, 1700000000, 0, 1700000000, 0⟩

/-- A tree where the regular file `/r/a` is also reachable through the
sibling symlink `/r/l`. -/
def fsAlias : FS :=
  ⟨[("/r", .dir), ("/r/a", .regular stat0), ("/r/l", .symlink "a")]⟩

/-- A tree whose symlink `/d/link` has an absolute target in another
directory. -/
def fsAbs : FS :=
  ⟨[("/d", .dir), ("/d/link", .symlink "/e/t.txt"),
    ("/e", .dir), ("/e/t.txt", .regular stat0)]⟩

/-- A tree with the two-link cycle `a -> b -> a`. -/
def fsCycle : FS :=
  ⟨[("/d", .dir), ("/d/a", .symlink "b"), ("/d/b", .symlink "a")]⟩

/-- A symlink-free tree with a nested matching file. -/
def fsPlain : FS :=
  ⟨[("/r", .dir), ("/r/a", .regular stat0),
    ("/r/d", .dir), ("/r/d/b", .regular stat1)]⟩

/-- A relative symlink chain `l -> x` inside one directory. -/
def fsRel : FS :=
  ⟨[("/d", .dir), ("/d/l", .symlink "x"), ("/d/x", .regular stat0)]⟩

/-- A stat whose mtime/ctime (253402300800 = 10000-01-01T00:00:00Z) lie
one second past the last RFC 3339 representable instant. -/
def statBig : StatT := ⟨9, 1, 0, 0, 253402300800, 0, 253402300800, 0⟩

/-- A tree containing one regular file stamped outside the RFC 3339 year
range. -/
def fsBigYear : FS :=
  ⟨[("/r", .dir), ("/r/x", .regular statBig)]⟩

/-! ## Theorems -/

/-! ### The concurrency bound (claim C5) and `conc = 0` (claim C6) -/

/-- Token-counting invariant: the channel occupancy (pre-start plus
running holders) never exceeds the capacity `conc`. -/
theorem sched_step_occupancy {conc : Nat} {s s' : SchedSt} {e : SchedEv}
    (hstep : SchedStep conc s e s') (h : s.inflight + s.running ≤ conc) :
    s'.inflight + s'.running ≤ conc := by
  cases hstep with
  | acquire _ hen =>
    have hlt : s.inflight + s.running < conc := by
      simpa [acquireEnabled] using hen
    show s.inflight + 1 + s.running ≤ conc
    omega
  | start i r =>
    have h' : i + 1 + r ≤ conc := h
    show i + (r + 1) ≤ conc
    omega
  | finish i r =>
    have h' : i + (r + 1) ≤ conc := h
    show i + r ≤ conc
    omega

/-- Token-counting invariant over every reachable state. -/
theorem sched_occupancy_le (conc : Nat) (s : SchedSt) (h : SchedReach conc s) :
    s.inflight + s.running ≤ conc := by
  induction h with
  | init => exact Nat.zero_le conc
  | next _ hstep ih => exact sched_step_occupancy hstep ih

/-- Claim C5: for every configured concurrency bound `conc ≥ 1`, at no
point during a crawl are more than `conc` directory visits (`crawlDir`
executions holding a `concLimit` token) in progress simultaneously. -/
theorem conc_bound_never_exceeded (conc : Nat) (s : SchedSt)
    (hconc : 1 ≤ conc) (h : SchedReach conc s) : s.running ≤ conc :=
  Nat.le_trans (Nat.le_add_left s.running s.inflight) (sched_occupancy_le conc s h)

/-- Witness for claim C5: with bound 1, the state reached by sending the
root token and entering the root visit has one running visit, within the
bound. -/
theorem conc_bound_never_exceeded_witness : SchedSt.running ⟨0, 1⟩ ≤ 1 :=
  conc_bound_never_exceeded 1 ⟨0, 1⟩ (Nat.le_refl 1)
    (SchedReach.next (SchedReach.next SchedReach.init
      (SchedStep.acquire ⟨0, 0⟩ (by decide))) (SchedStep.start 0 0))

/-- Claim C6 (code bug): with `conc = 0` the crawler is constructed
successfully — the configuration is neither rejected nor clamped to 1,
the token channel gets capacity 0 — and the token send that guards every
directory visit is never enabled, so `Crawl` blocks forever on line 59
instead of completing; `conc < 0` panics inside `make` rather than being
validated. -/
theorem conc_zero_not_rejected_not_clamped
    (compile : String → Option (String → Bool)) (fol : Bool) :
    NewPosixCrawler compile 0 "" fol =
      .ok ⟨4096, 4096, 100, 0, none, fol⟩ ∧
    (∀ s : SchedSt, acquireEnabled 0 s = false) ∧
    NewPosixCrawler compile (-1) "" fol = .error "makechan: size out of range" := by
  refine ⟨rfl, fun s => ?_, rfl⟩
  simp [acquireEnabled]

/-! ### Generic helper lemmas -/

/-- A duplicate-free list of strings drawn from `keys` is no longer than
`keys`. -/
theorem nodup_subset_length_le {l keys : List String} (hn : l.Nodup)
    (hsub : ∀ x ∈ l, x ∈ keys) : l.length ≤ keys.length :=
  calc l.length = l.dedup.length := by rw [hn.dedup]
    _ = l.toFinset.card := (List.card_toFinset l).symm
    _ ≤ keys.toFinset.card := Finset.card_le_card (fun x hx => by
        simp only [List.mem_toFinset] at hx ⊢
        exact hsub x hx)
    _ ≤ keys.length := List.toFinset_card_le keys

/-- A successful `lstat` exhibits its entry in the filesystem list. -/
theorem lstat_some_entry_mem {fs : FS} {p : String} {t : FType}
    (h : lstat fs p = some t) : (p, t) ∈ fs.entries := by
  unfold lstat at h
  cases hf : fs.entries.find? (fun e => e.1 == p) with
  | none => rw [hf] at h; cases h
  | some e =>
    rw [hf] at h
    have ht : e.2 = t := by simpa using h
    have hmem := List.mem_of_find?_eq_some hf
    have hp : e.1 = p := by simpa using List.find?_some hf
    obtain ⟨e1, e2⟩ := e
    cases hp
    cases ht
    exact hmem

/-- A successfully statted path is one of the filesystem's keys. -/
theorem lstat_some_mem_keys {fs : FS} {p : String} {t : FType}
    (h : lstat fs p = some t) : p ∈ fs.keys :=
  List.mem_map_of_mem Prod.fst (lstat_some_entry_mem h)

/-! ### Termination of symlink resolution (claim C4) -/

/-- The dereferencing loop returns within the fuel bound whenever the
seen-set is duplicate-free, drawn from the filesystem, and small enough;
a returned success is never a symlink. -/
theorem resolveLoop_total (fs : FS) (link : String) :
    ∀ (fuel : Nat) (seen : List String) (f d : String),
      seen.Nodup → (∀ x ∈ seen, x ∈ fs.keys) →
      fs.keys.length + 1 ≤ fuel + seen.length →
      ∃ r, resolveLoop fs link fuel seen f d = some r ∧
        ∀ ft nm dir, r = Except.ok (ft, nm, dir) → isSymlinkT ft = false := by
  intro fuel
  induction fuel with
  | zero =>
    intro seen f d hn hsub hlen
    exact absurd (nodup_subset_length_le hn hsub) (by omega)
  | succ fuel ih =>
    intro seen f d hn hsub hlen
    cases hls : lstat fs f with
    | none =>
      exact ⟨.error ("lstat " ++ f ++ ": no such file or directory"),
        by simp [resolveLoop, hls], by intro ft nm dir h; cases h⟩
    | some fi =>
      by_cases hc : f ∈ seen
      · exact ⟨.error ("circular symlink: " ++ link),
          by simp [resolveLoop, hls, hc], by intro ft nm dir h; cases h⟩
      · have hfk : f ∈ fs.keys := lstat_some_mem_keys hls
        cases fi with
        | symlink t =>
          obtain ⟨r, hr, hok⟩ := ih (f :: seen) (stepCand d t).1 (stepCand d t).2
            (List.nodup_cons.mpr ⟨hc, hn⟩)
            (fun x hx => by
              rcases List.mem_cons.mp hx with h | h
              · exact h ▸ hfk
              · exact hsub x h)
            (by simp only [List.length_cons]; omega)
          exact ⟨r, by simp [resolveLoop, hls, hc, hr], hok⟩
        | dir =>
          exact ⟨.ok (.dir, goBase f, d), by simp [resolveLoop, hls, hc],
            by intro ft nm dir h; cases h; rfl⟩
        | regular s =>
          exact ⟨.ok (.regular s, goBase f, d), by simp [resolveLoop, hls, hc],
            by intro ft nm dir h; cases h; rfl⟩
        | other =>
          exact ⟨.ok (.other, goBase f, d), by simp [resolveLoop, hls, hc],
            by intro ft nm dir h; cases h; rfl⟩

/-- Claim C4: `resolveSymlink` terminates on every input over the finite
filesystem — the loop fuel chosen on line 244 is always sufficient — and
whenever it succeeds, the resolved node is not a symlink (an acyclic chain
resolves fully; a cyclic one stops in the error state instead of looping
forever). -/
theorem resolveSymlink_always_terminates (fs : FS) (currPath linkName : String) :
    ∃ r, resolveSymlink fs currPath linkName = some r ∧
      ∀ ft nm dir, r = Except.ok (ft, nm, dir) → isSymlinkT ft = false := by
  cases hrl : readlink fs (goJoin currPath linkName) with
  | error e =>
    exact ⟨.error e, by simp [resolveSymlink, hrl], by intro ft nm dir h; cases h⟩
  | ok target =>
    obtain ⟨r, hr, hok⟩ := resolveLoop_total fs (goJoin currPath linkName)
      (fs.entries.length + 1) [] (stepCand currPath target).1
      (stepCand currPath target).2 List.nodup_nil (by simp)
      (by simp [FS.keys])
    exact ⟨r, by simp [resolveSymlink, hrl, hr], hok⟩

/-! ### Circular symlink chains (claim C3) -/

/-- A defined candidate-sequence step has all its predecessors defined. -/
theorem candSeq_isSome_succ {fs : FS} {c l : String} {n : Nat}
    (h : (candSeq fs c l (n + 1)).isSome) : (candSeq fs c l n).isSome := by
  rw [candSeq] at h
  cases hn : candSeq fs c l n with
  | none => rw [hn] at h; simp at h
  | some st => simp

/-- Monotonicity of definedness of the candidate sequence. -/
theorem candSeq_isSome_of_le {fs : FS} {c l : String} {m n : Nat}
    (hmn : m ≤ n) (h : (candSeq fs c l n).isSome) : (candSeq fs c l m).isSome := by
  induction hmn with
  | refl => exact h
  | step hle ih => exact ih (candSeq_isSome_succ h)

/-- A defined successor step exhibits the symlink dereferenced at step
`k` and the resulting candidate state. -/
theorem candSeq_step {fs : FS} {c l : String} {k : Nat} {stk : String × String}
    (h : candSeq fs c l k = some stk) (hs : (candSeq fs c l (k + 1)).isSome) :
    ∃ t, lstat fs stk.1 = some (.symlink t) ∧
      candSeq fs c l (k + 1) = some (stepCand stk.2 t) := by
  have hexp : candSeq fs c l (k + 1) =
      (match lstat fs stk.1 with
       | some (.symlink t) => some (stepCand stk.2 t)
       | _ => none) := by
    simp [candSeq, h]
  rw [hexp] at hs ⊢
  cases hls : lstat fs stk.1 with
  | none => simp [hls] at hs
  | some fi =>
    cases fi with
    | symlink t => exact ⟨t, rfl, by simp⟩
    | dir => simp [hls] at hs
    | regular s => simp [hls] at hs
    | other => simp [hls] at hs

/-- The seen-set after `k + 1` iterations is the step-`k` candidate
consed onto the seen-set after `k` iterations. -/
theorem seenListRev_succ (fs : FS) (c l : String) (k : Nat) :
    seenListRev fs c l (k + 1) = candName fs c l k :: seenListRev fs c l k := by
  simp [seenListRev, List.range_succ]

/-- Membership in the seen-set after `k` iterations is being one of the
first `k` candidate names. -/
theorem mem_seenListRev {fs : FS} {c l : String} {k : Nat} {x : String} :
    x ∈ seenListRev fs c l k ↔ ∃ i, i < k ∧ x = candName fs c l i := by
  simp only [seenListRev, List.mem_reverse, List.mem_map, List.mem_range]
  constructor
  · rintro ⟨i, hi, hx⟩
    exact ⟨i, hi, hx.symm⟩
  · rintro ⟨i, hi, hx⟩
    exact ⟨i, hi, hx.symm⟩

/-- Simulation of the dereferencing loop along a candidate sequence whose
first revisit happens at step `n`: started at step `k` with the first `k`
candidates seen, the loop reports the circular-symlink error naming the
original link. -/
theorem resolveLoop_runs_to_cycle (fs : FS) (c l : String) (n : Nat)
    (hsome : (candSeq fs c l n).isSome)
    (hdist : ∀ i j, i < j → j < n → candName fs c l i ≠ candName fs c l j)
    (hrev : ∃ j, j < n ∧ candName fs c l j = candName fs c l n) :
    ∀ (m k : Nat), k + m = n → ∀ (fuel : Nat), m + 1 ≤ fuel →
      resolveLoop fs (goJoin c l) fuel (seenListRev fs c l k)
          (candName fs c l k) (candDirName fs c l k) =
        some (.error ("circular symlink: " ++ goJoin c l)) := by
  intro m
  induction m with
  | zero =>
    intro k hk fuel hfuel
    obtain ⟨fu, rfl⟩ : ∃ fu, fuel = fu + 1 :=
      ⟨fuel - 1, by omega⟩
    obtain ⟨j, hj, hjeq⟩ := hrev
    have hkn : k = n := by omega
    subst hkn
    have hjs : (candSeq fs c l j).isSome := candSeq_isSome_of_le (by omega) hsome
    obtain ⟨stj, hstj⟩ := Option.isSome_iff_exists.mp hjs
    have hjs1 : (candSeq fs c l (j + 1)).isSome := candSeq_isSome_of_le (by omega) hsome
    obtain ⟨t, hlt, _⟩ := candSeq_step hstj hjs1
    have hname : candName fs c l j = stj.1 := by simp [candName, hstj]
    have hlstat : lstat fs (candName fs c l k) = some (.symlink t) := by
      rw [← hjeq, hname]
      exact hlt
    have hmem : candName fs c l k ∈ seenListRev fs c l k :=
      mem_seenListRev.mpr ⟨j, hj, hjeq.symm⟩
    simp [resolveLoop, hlstat, hmem]
  | succ m ih =>
    intro k hk fuel hfuel
    obtain ⟨fu, rfl⟩ : ∃ fu, fuel = fu + 1 :=
      ⟨fuel - 1, by omega⟩
    have hks : (candSeq fs c l k).isSome := candSeq_isSome_of_le (by omega) hsome
    obtain ⟨stk, hstk⟩ := Option.isSome_iff_exists.mp hks
    have hks1 : (candSeq fs c l (k + 1)).isSome := candSeq_isSome_of_le (by omega) hsome
    obtain ⟨t, hlt, hsucc⟩ := candSeq_step hstk hks1
    have hname : candName fs c l k = stk.1 := by simp [candName, hstk]
    have hdirname : candDirName fs c l k = stk.2 := by simp [candDirName, hstk]
    have hnotmem : candName fs c l k ∉ seenListRev fs c l k := by
      intro hmem
      obtain ⟨i, hi, hieq⟩ := mem_seenListRev.mp hmem
      exact hdist i k hi (by omega) hieq.symm
    have hname1 : candName fs c l (k + 1) = (stepCand stk.2 t).1 := by
      simp [candName, hsucc]
    have hdirname1 : candDirName fs c l (k + 1) = (stepCand stk.2 t).2 := by
      simp [candDirName, hsucc]
    have hrec := ih (k + 1) (by omega) fu (by omega)
    rw [seenListRev_succ, hname1, hdirname1] at hrec
    rw [hname, hdirname]
    simp only [resolveLoop, hlt, if_neg (hname ▸ hnotmem)]
    rw [← hname]
    exact hrec

/-- Claim C3: a symlink chain whose candidate sequence revisits an
already-seen path (first doing so at step `n`) makes `resolveSymlink`
fail with the circular-symlink error naming the original link; inside
`crawlDir` that entry is skipped with only the error recorded, and the
fold over the remaining sibling entries continues. -/
theorem circular_symlink_detected_and_skipped (fs : FS) (c l : String) (n : Nat)
    (hsome : (candSeq fs c l n).isSome)
    (hdist : ∀ i j, i < j → j < n → candName fs c l i ≠ candName fs c l j)
    (hrev : ∃ j, j < n ∧ candName fs c l j = candName fs c l n) :
    resolveSymlink fs c l =
      some (.error ("circular symlink: " ++ goJoin c l)) ∧
    (∀ (pattern : Option (String → Bool)) (visit : String → CrawlSt → CrawlSt)
       (st : CrawlSt) (t : String),
       crawlEntry fs pattern true visit c st (l, .symlink t) =
         emitErr st ("circular symlink: " ++ goJoin c l)) ∧
    (∀ (pattern : Option (String → Bool)) (visit : String → CrawlSt → CrawlSt)
       (st : CrawlSt) (t : String) (pre post : List (String × FType)),
       (pre ++ (l, FType.symlink t) :: post).foldl
           (crawlEntry fs pattern true visit c) st =
         post.foldl (crawlEntry fs pattern true visit c)
           (emitErr (pre.foldl (crawlEntry fs pattern true visit c) st)
             ("circular symlink: " ++ goJoin c l))) := by
  have hn_le : n ≤ fs.entries.length := by
    have hnodup : ((List.range n).map (candName fs c l)).Nodup := by
      refine List.Nodup.map_on ?_ (List.nodup_range n)
      intro x hx y hy hxy
      simp only [List.mem_range] at hx hy
      rcases Nat.lt_trichotomy x y with h | h | h
      · exact absurd hxy (hdist x y h hy)
      · exact h
      · exact absurd hxy.symm (hdist y x h hx)
    have hsub : ∀ x ∈ (List.range n).map (candName fs c l), x ∈ fs.keys := by
      intro x hx
      obtain ⟨i, hi, hix⟩ := List.mem_map.mp hx
      simp only [List.mem_range] at hi
      have his : (candSeq fs c l i).isSome := candSeq_isSome_of_le (by omega) hsome
      obtain ⟨sti, hsti⟩ := Option.isSome_iff_exists.mp his
      have his1 : (candSeq fs c l (i + 1)).isSome := candSeq_isSome_of_le (by omega) hsome
      obtain ⟨t, hlt, _⟩ := candSeq_step hsti his1
      have : candName fs c l i = sti.1 := by simp [candName, hsti]
      rw [← hix, this]
      exact lstat_some_mem_keys hlt
    have := nodup_subset_length_le hnodup hsub
    simpa [FS.keys] using this
  have h0 : (candSeq fs c l 0).isSome := candSeq_isSome_of_le (Nat.zero_le n) hsome
  have hcirc : resolveSymlink fs c l =
      some (.error ("circular symlink: " ++ goJoin c l)) := by
    rw [candSeq] at h0
    cases hrl : readlink fs (goJoin c l) with
    | error e => rw [hrl] at h0; simp at h0
    | ok target =>
      have hc0 : candSeq fs c l 0 = some (stepCand c target) := by
        rw [candSeq, hrl]
      have hname0 : candName fs c l 0 = (stepCand c target).1 := by
        simp [candName, hc0]
      have hdir0 : candDirName fs c l 0 = (stepCand c target).2 := by
        simp [candDirName, hc0]
      have hrun := resolveLoop_runs_to_cycle fs c l n hsome hdist hrev n 0 (by omega)
        (fs.entries.length + 1) (by omega)
      rw [hname0, hdir0] at hrun
      rw [resolveSymlink, hrl]
      exact hrun
  refine ⟨hcirc, ?_, ?_⟩
  · intro pattern visit st t
    simp [crawlEntry, isSymlinkT, resolveSymlinkTotal, hcirc]
  · intro pattern visit st t pre post
    rw [List.foldl_append, List.foldl_cons]
    congr 1
    simp [crawlEntry, isSymlinkT, resolveSymlinkTotal, hcirc]

/-- Witness for claim C3: in the cycle `/d/a -> b -> a`, the candidate
sequence revisits `/d/b` at step 2, resolution fails with the
circular-symlink error naming `/d/a`, and processing the entry only
records that error. -/
theorem circular_symlink_detected_and_skipped_witness :
    resolveSymlink fsCycle "/d" "a" =
      some (.error "circular symlink: /d/a") ∧
    crawlEntry fsCycle none true (fun _ st => st) "/d" ⟨[], []⟩
        ("a", .symlink "b") =
      ⟨[], ["circular symlink: /d/a"]⟩ := by
  have h := circular_symlink_detected_and_skipped fsCycle "/d" "a" 2
    (by decide)
    (by
      intro i j hij hj2
      interval_cases j
      · omega
      · interval_cases i
        decide)
    ⟨0, by decide, by decide⟩
  refine ⟨by simpa using h.1, ?_⟩
  have h2 := h.2.1 none (fun _ st => st) ⟨[], []⟩ "b"
  simpa [emitErr] using h2

/-! ### The tracked directory of symlink resolution (claim C2) -/

/-- When every symlink target is relative, the loop's tracked directory
is always the containing directory of the current candidate, so a
successful resolution reports the containing directory of the final
resolved target together with its base name. -/
theorem resolveLoop_relative (fs : FS) (link : String)
    (hrel : allRelTargetsB fs = true) :
    ∀ (fuel : Nat) (seen : List String) (f : String) (ft : FType) (nm dir : String),
      resolveLoop fs link fuel seen f (goDir f) = some (.ok (ft, nm, dir)) →
      ∃ g, lstat fs g = some ft ∧ isSymlinkT ft = false ∧
        nm = goBase g ∧ dir = goDir g := by
  intro fuel
  induction fuel with
  | zero => intro seen f ft nm dir h; simp [resolveLoop] at h
  | succ fuel ih =>
    intro seen f ft nm dir h
    cases hls : lstat fs f with
    | none => simp [resolveLoop, hls] at h
    | some fi =>
      by_cases hc : f ∈ seen
      · simp [resolveLoop, hls, hc] at h
      · cases fi with
        | symlink t =>
          have hmem := lstat_some_entry_mem hls
          have habs : goIsAbs t = false := by
            have hall := (List.all_eq_true.mp hrel) _ hmem
            simpa using hall
          have hstep : stepCand (goDir f) t =
              (goClean (goJoin (goDir f) t), goDir (goClean (goJoin (goDir f) t))) := by
            simp [stepCand, habs]
          simp only [resolveLoop, hls, if_neg hc, hstep] at h
          exact ih _ _ _ _ _ h
        | dir =>
          simp [resolveLoop, hls, hc] at h
          obtain ⟨h1, h2, h3⟩ := h
          exact ⟨f, h1 ▸ hls, h1 ▸ rfl, h2.symm, h3.symm⟩
        | regular s =>
          simp [resolveLoop, hls, hc] at h
          obtain ⟨h1, h2, h3⟩ := h
          exact ⟨f, h1 ▸ hls, h1 ▸ rfl, h2.symm, h3.symm⟩
        | other =>
          simp [resolveLoop, hls, hc] at h
          obtain ⟨h1, h2, h3⟩ := h
          exact ⟨f, h1 ▸ hls, h1 ▸ rfl, h2.symm, h3.symm⟩

/-- Amended claim C2: for every symlink that resolves successfully in a
filesystem whose link targets are all relative, `resolveSymlink` yields
the resolved (non-symlink) node, its base name, and the containing
directory of the final resolved target, so the emitted record path
`join(dir, name)` rebuilds that target's path.  (The claim's
absolute-target case is refuted by
`resolveSymlink_absolute_target_keeps_stale_dir`: an absolute link target
leaves the tracked directory unchanged.) -/
theorem resolveSymlink_dir_tracks_relative_targets (fs : FS)
    (currPath linkName : String) (ft : FType) (nm dir : String)
    (hrel : allRelTargetsB fs = true)
    (hok : resolveSymlink fs currPath linkName = some (.ok (ft, nm, dir))) :
    ∃ g, lstat fs g = some ft ∧ isSymlinkT ft = false ∧
      nm = goBase g ∧ dir = goDir g := by
  rw [resolveSymlink] at hok
  cases hrl : readlink fs (goJoin currPath linkName) with
  | error e => rw [hrl] at hok; cases hok
  | ok target =>
    rw [hrl] at hok
    have hmem : (goJoin currPath linkName, FType.symlink target) ∈ fs.entries := by
      unfold readlink at hrl
      cases hls : lstat fs (goJoin currPath linkName) with
      | none => rw [hls] at hrl; cases hrl
      | some fi =>
        cases fi with
        | symlink t =>
          rw [hls] at hrl
          have : t = target := by simpa using hrl
          exact this ▸ lstat_some_entry_mem hls
        | dir => rw [hls] at hrl; cases hrl
        | regular s => rw [hls] at hrl; cases hrl
        | other => rw [hls] at hrl; cases hrl
    have habs : goIsAbs target = false := by
      have hall := (List.all_eq_true.mp hrel) _ hmem
      simpa using hall
    have hstep : stepCand currPath target =
        (goClean (goJoin currPath target), goDir (goClean (goJoin currPath target))) := by
      simp [stepCand, habs]
    have hok2 : resolveLoop fs (goJoin currPath linkName) (fs.entries.length + 1) []
        (stepCand currPath target).1 (stepCand currPath target).2 =
        some (.ok (ft, nm, dir)) := hok
    rw [hstep] at hok2
    exact resolveLoop_relative fs _ hrel _ _ _ _ _ _ hok2

/-- Witness for the amended claim C2: resolving `/d/l -> x` yields the
regular node `/d/x` with name `x` and containing directory `/d`. -/
theorem resolveSymlink_dir_tracks_relative_targets_witness :
    allRelTargetsB fsRel = true ∧
    ∃ g, lstat fsRel g = some (.regular stat0) ∧
      isSymlinkT (.regular stat0) = false ∧
      "x" = goBase g ∧ "/d" = goDir g :=
  ⟨by decide,
   resolveSymlink_dir_tracks_relative_targets fsRel "/d" "l" (.regular stat0)
     "x" "/d" (by decide) rfl⟩

/-- Counterexample to claim C2 as stated: the link `/d/link` has the
absolute target `/e/t.txt`, whose containing directory is `/e`, yet
`resolveSymlink` returns the stale directory `/d` (lines 162-166 update
the tracked directory only for relative targets), so the crawl emits the
non-existent path `/d/t.txt` instead of `/e/t.txt`. -/
theorem resolveSymlink_absolute_target_keeps_stale_dir :
    resolveSymlink fsAbs "/d" "link" =
      some (.ok (.regular stat0, "t.txt", "/d")) ∧
    goDir "/e/t.txt" = "/e" ∧
    ("/d" : String) ≠ "/e" ∧
    (Crawl fsAbs none true "/d").1 = [mkPosixInfo "/d/t.txt" stat0] ∧
    lstat fsAbs "/d/t.txt" = none :=
  ⟨rfl, rfl, by decide, rfl, rfl⟩

/-! ### Error collection and aggregation (claim C7) -/

/-- With no percent sign in sight, the zero-operand formatter copies its
input. -/
theorem fmtLoop_copies_without_percent :
    ∀ (fuel : Nat) (s : List Char), '%' ∉ s → s.length < fuel →
      fmtLoop fuel s = s := by
  intro fuel
  induction fuel with
  | zero => intro s _ h; omega
  | succ fuel ih =>
    intro s hmem hlen
    cases s with
    | nil => rfl
    | cons c rest =>
      have hc : ¬ c = '%' := fun h => hmem (h ▸ List.mem_cons_self c rest)
      simp only [fmtLoop, hc, if_false]
      exact congrArg (c :: ·) (ih rest (fun h => hmem (List.mem_cons_of_mem c h))
        (by simp only [List.length_cons] at hlen; omega))

/-- `fmt.Errorf` leaves a message without percent signs untouched. -/
theorem goSprintf_id_of_no_percent (s : String) (h : '%' ∉ s.data) :
    goSprintfNoOperands s = s := by
  unfold goSprintfNoOperands
  rw [fmtLoop_copies_without_percent _ _ h (by omega)]

/-- Counterexample to claim C7 as stated: a path containing `%d` is legal,
and the error collected for it reaches `fmt.Errorf` (line 73) as part of
the format string, so `Crawl` returns the mangled `%!d(MISSING)` text, not
the concatenation of the collected messages. -/
theorem percent_in_error_message_is_mangled :
    crawlErrs ⟨[]⟩ none true "/a%d" =
      ["open /a%d: no such file or directory"] ∧
    (Crawl ⟨[]⟩ none true "/a%d").2 =
      some "open /a%!d(MISSING): no such file or directory" ∧
    (Crawl ⟨[]⟩ none true "/a%d").2 ≠
      some (goStringsJoin ["open /a%d: no such file or directory"] "\n") :=
  ⟨by decide, by decide, by decide⟩

/-- Amended claim C7: error enqueueing is non-blocking — the message is
appended when the 100-slot queue has room and dropped otherwise — and
`Crawl` returns the newline-join of the collected messages passed through
`fmt.Errorf` as a format string with no operands, which is the plain
concatenation exactly when no collected message contains a percent sign;
success (`nil`) is returned exactly when the collection is empty. -/
theorem errors_dropped_when_full_and_formatted
    (st : CrawlSt) (e : String) (fs : FS) (pattern : Option (String → Bool))
    (fol : Bool) (root : String) :
    (st.errQ.length < 100 → emitErr st e = { st with errQ := st.errQ ++ [e] }) ∧
    (¬ st.errQ.length < 100 → emitErr st e = st) ∧
    ((Crawl fs pattern fol root).2 = none ↔ crawlErrs fs pattern fol root = []) ∧
    (crawlErrs fs pattern fol root ≠ [] →
      (Crawl fs pattern fol root).2 =
        some (goSprintfNoOperands
          (goStringsJoin (crawlErrs fs pattern fol root) "\n"))) ∧
    (∀ s : String, '%' ∉ s.data → goSprintfNoOperands s = s) := by
  refine ⟨fun h => by simp [emitErr, h], fun h => by simp [emitErr, h], ?_, ?_,
    goSprintf_id_of_no_percent⟩
  · show aggregateErrors (crawlErrs fs pattern fol root) = none ↔ _
    rcases hq : crawlErrs fs pattern fol root with _ | ⟨a, q⟩ <;>
      simp [aggregateErrors]
  · intro hne
    show aggregateErrors (crawlErrs fs pattern fol root) = _
    rcases hq : crawlErrs fs pattern fol root with _ | ⟨a, q⟩
    · exact absurd hq hne
    · simp [aggregateErrors]

/-- Witness for the amended claim C7: a fresh queue accepts a message;
crawling a missing (percent-free) root returns exactly the collected
directory-open error; the error-free crawl returns success; a percent-free
string passes through the formatter unchanged. -/
theorem errors_dropped_when_full_and_formatted_witness :
    emitErr ⟨[], []⟩ "boom" = ⟨[], ["boom"]⟩ ∧
    (Crawl ⟨[]⟩ none true "/missing").2 =
      some "open /missing: no such file or directory" ∧
    (Crawl fsPlain none false "/r").2 = none ∧
    goSprintfNoOperands "no percent here" = "no percent here" := by
  have h1 := errors_dropped_when_full_and_formatted ⟨[], []⟩ "boom"
    (⟨[]⟩ : FS) none true "/missing"
  have h2 := errors_dropped_when_full_and_formatted ⟨[], []⟩ "boom"
    fsPlain none false "/r"
  refine ⟨h1.1 (by decide), ?_, h2.2.2.1.mpr (by decide),
    h1.2.2.2.2 "no percent here" (by decide)⟩
  have h3 := h1.2.2.2.1 (by decide)
  rw [h3]
  decide

/-! ### Pattern validation at construction (claim C10) -/

/-- Claim C10: a non-whitespace pattern that fails to compile makes
`NewPosixCrawler` panic (modelled as the non-`ok` outcome — the function
has no error return value to recover through), while a whitespace-only or
empty pattern yields a crawler with no configured pattern, under which
every path matches. -/
theorem invalid_pattern_panics_blank_matches_all
    (compile : String → Option (String → Bool)) (conc : Int) (pat : String)
    (fol : Bool) (hconc : 0 ≤ conc) :
    ((goTrimSpace pat).length > 0 → compile pat = none →
      NewPosixCrawler compile conc pat fol =
        .error ("regexp: Compile: error parsing regexp: " ++ pat)) ∧
    ((goTrimSpace pat).length = 0 →
      NewPosixCrawler compile conc pat fol =
        .ok ⟨4096, 4096, 100, conc.toNat, none, fol⟩ ∧
      ∀ q, patMatch none q = true) := by
  have hlt : ¬ conc < 0 := Int.not_lt.mpr hconc
  constructor
  · intro hlen hcomp
    simp [NewPosixCrawler, hlt, hlen, hcomp]
  · intro hlen
    refine ⟨?_, fun q => rfl⟩
    simp [NewPosixCrawler, hlt, hlen]

/-- Witness for claim C10: the invalid pattern `[` (rejected by the
abstracted compiler) panics at construction, while the all-whitespace
pattern produces a pattern-free crawler that matches any path. -/
theorem invalid_pattern_panics_blank_matches_all_witness :
    NewPosixCrawler (fun _ => none) 4 "[" true =
      .error "regexp: Compile: error parsing regexp: [" ∧
    NewPosixCrawler (fun _ => none) 4 "  " true =
      .ok ⟨4096, 4096, 100, 4, none, true⟩ ∧
    patMatch none "/any/path" = true := by
  have h1 := invalid_pattern_panics_blank_matches_all (fun _ => none) 4 "[" true
    (by decide)
  have h2 := invalid_pattern_panics_blank_matches_all (fun _ => none) 4 "  " true
    (by decide)
  refine ⟨?_, ?_, (h2.2 (by decide)).2 "/any/path"⟩
  · simpa using h1.1 (by decide) rfl
  · simpa using (h2.2 (by decide)).1

/-! ### Decomposition of the traversal's outputs -/

/-- Recording an error never changes the emitted records. -/
theorem emitErr_outputs (st : CrawlSt) (e : String) :
    (emitErr st e).outputs = st.outputs := by
  unfold emitErr
  split <;> rfl

/-- A fold whose step appends a state-independent contribution appends
the concatenation of the contributions. -/
theorem foldl_outputs_decomp {α : Type} (step : CrawlSt → α → CrawlSt)
    (g : α → List PosixInfo)
    (hstep : ∀ st a, (step st a).outputs = st.outputs ++ g a) :
    ∀ (l : List α) (st : CrawlSt),
      (l.foldl step st).outputs = st.outputs ++ l.flatMap g := by
  intro l
  induction l with
  | nil => intro st; simp
  | cons a l ih =>
    intro st
    rw [List.foldl_cons, ih, hstep, List.flatMap_cons, List.append_assoc]

/-- The records produced by a directory visit do not depend on the state
it starts from: they are appended to it. -/
theorem crawlDir_outputs_decomp (fs : FS) (pattern : Option (String → Bool))
    (fol : Bool) :
    ∀ (fuel : Nat) (p : String) (st : CrawlSt),
      (crawlDir fs pattern fol fuel p st).outputs =
        st.outputs ++ dirOut fs pattern fol fuel p := by
  intro fuel
  induction fuel with
  | zero => intro p st; simp [crawlDir, dirOut]
  | succ fuel ih =>
    have hcls : ∀ (pathv : String) (fm : FType) (st : CrawlSt),
        (crawlClassify pattern (crawlDir fs pattern fol fuel) pathv fm st).outputs =
          st.outputs ++
            (crawlClassify pattern (crawlDir fs pattern fol fuel) pathv fm
              ⟨[], []⟩).outputs := by
      intro pathv fm st
      cases fm with
      | dir =>
        simp only [crawlClassify]
        rw [ih, ih]
        simp
      | regular s => cases hpm : patMatch pattern pathv <;> simp [crawlClassify, hpm]
      | symlink t => simp [crawlClassify]
      | other => simp [crawlClassify]
    have hent : ∀ (currPath : String) (st : CrawlSt) (e : String × FType),
        (crawlEntry fs pattern fol (crawlDir fs pattern fol fuel)
            currPath st e).outputs =
          st.outputs ++ entOut fs pattern fol fuel currPath e := by
      intro currPath st e
      by_cases hsym : (fol && isSymlinkT e.2) = true
      · cases hres : resolveSymlinkTotal fs currPath e.1 with
        | error er => simp [crawlEntry, entOut, hsym, hres, emitErr_outputs]
        | ok r =>
          simp only [crawlEntry, entOut, hsym, hres, if_true]
          rw [hcls]
      · simp only [crawlEntry, entOut, hsym, if_false, Bool.false_eq_true]
        rw [hcls]
    intro p st
    rw [crawlDir]
    unfold dirOut
    rw [crawlDir]
    cases readDir fs p with
    | error e => simp [emitErr_outputs]
    | ok files =>
      rw [foldl_outputs_decomp _ (entOut fs pattern fol fuel p) (hent p) files st,
        foldl_outputs_decomp _ (entOut fs pattern fol fuel p) (hent p) files ⟨[], []⟩]
      rfl

/-- Entry processing appends the entry's state-independent record
contribution. -/
theorem crawlEntry_outputs_decomp (fs : FS) (pattern : Option (String → Bool))
    (fol : Bool) (fuel : Nat) (currPath : String) (st : CrawlSt)
    (e : String × FType) :
    (crawlEntry fs pattern fol (crawlDir fs pattern fol fuel)
        currPath st e).outputs =
      st.outputs ++ entOut fs pattern fol fuel currPath e := by
  have hcls : ∀ (pathv : String) (fm : FType) (st : CrawlSt),
      (crawlClassify pattern (crawlDir fs pattern fol fuel) pathv fm st).outputs =
        st.outputs ++
          (crawlClassify pattern (crawlDir fs pattern fol fuel) pathv fm
            ⟨[], []⟩).outputs := by
    intro pathv fm st
    cases fm with
    | dir =>
      simp only [crawlClassify]
      rw [crawlDir_outputs_decomp, crawlDir_outputs_decomp]
      simp
    | regular s => cases hpm : patMatch pattern pathv <;> simp [crawlClassify, hpm]
    | symlink t => simp [crawlClassify]
    | other => simp [crawlClassify]
  by_cases hsym : (fol && isSymlinkT e.2) = true
  · cases hres : resolveSymlinkTotal fs currPath e.1 with
    | error er => simp [crawlEntry, entOut, hsym, hres, emitErr_outputs]
    | ok r =>
      simp only [crawlEntry, entOut, hsym, hres, if_true]
      rw [hcls]
  · simp only [crawlEntry, entOut, hsym, if_false, Bool.false_eq_true]
    rw [hcls]

/-- The per-visit records: nothing on a listing error, otherwise the
concatenation of the per-entry records. -/
theorem dirOut_succ (fs : FS) (pattern : Option (String → Bool)) (fol : Bool)
    (fuel : Nat) (p : String) :
    dirOut fs pattern fol (fuel + 1) p =
      (match readDir fs p with
       | .error _ => []
       | .ok files => files.flatMap (entOut fs pattern fol fuel p)) := by
  unfold dirOut
  rw [crawlDir]
  cases readDir fs p with
  | error e => simp [emitErr_outputs, emitErr]
  | ok files =>
    rw [foldl_outputs_decomp _ (entOut fs pattern fol fuel p)
      (fun st e => crawlEntry_outputs_decomp fs pattern fol fuel p st e) files ⟨[], []⟩]
    rfl

/-- Every record contributed by one entry is either freshly built by
`mkPosixInfo` or comes from a recursive directory visit. -/
theorem entOut_cases (fs : FS) (pattern : Option (String → Bool)) (fol : Bool)
    (fuel : Nat) (currPath : String) (e : String × FType) (i : PosixInfo)
    (hi : i ∈ entOut fs pattern fol fuel currPath e) :
    (∃ pathv s, i = mkPosixInfo pathv s) ∨
      ∃ d, i ∈ dirOut fs pattern fol fuel d := by
  by_cases hsym : (fol && isSymlinkT e.2) = true
  · cases hres : resolveSymlinkTotal fs currPath e.1 with
    | error er => simp [entOut, crawlEntry, hsym, hres, emitErr] at hi
    | ok r =>
      simp only [entOut, crawlEntry, hsym, hres, if_true] at hi
      cases hr1 : r.1 with
      | dir =>
        rw [hr1] at hi
        simp only [crawlClassify] at hi
        exact Or.inr ⟨goJoin r.2.2 r.2.1, hi⟩
      | regular s =>
        rw [hr1] at hi
        cases hpm : patMatch pattern (goJoin r.2.2 r.2.1) <;>
          simp [crawlClassify, hpm] at hi
        exact Or.inl ⟨goJoin r.2.2 r.2.1, s, hi⟩
      | symlink t => rw [hr1] at hi; simp [crawlClassify] at hi
      | other => rw [hr1] at hi; simp [crawlClassify] at hi
  · simp only [entOut, crawlEntry, hsym, if_false, Bool.false_eq_true] at hi
    cases he2 : e.2 with
    | dir =>
      rw [he2] at hi
      exact Or.inr ⟨goJoin currPath e.1, hi⟩
    | regular s =>
      rw [he2] at hi
      cases hpm : patMatch pattern (goJoin currPath e.1) <;>
        simp [crawlClassify, hpm] at hi
      exact Or.inl ⟨goJoin currPath e.1, s, hi⟩
    | symlink t => rw [he2] at hi; simp [crawlClassify] at hi
    | other => rw [he2] at hi; simp [crawlClassify] at hi

/-! ### Serialization: keys and UTC timestamps (claim C9) -/

/-- Every record a crawl emits carries UTC times: `crawlDir` builds each
record through `time.Unix(...).UTC()`. -/
theorem dirOut_mem_utc (fs : FS) (pattern : Option (String → Bool)) (fol : Bool) :
    ∀ (fuel : Nat) (p : String) (i : PosixInfo), i ∈ dirOut fs pattern fol fuel p →
      i.mtime.offsetSec = 0 ∧ i.ctime.offsetSec = 0 := by
  intro fuel
  induction fuel with
  | zero => intro p i hi; simp [dirOut, crawlDir] at hi
  | succ fuel ih =>
    intro p i hi
    rw [dirOut_succ] at hi
    cases hrd : readDir fs p with
    | error e => rw [hrd] at hi; simp at hi
    | ok files =>
      rw [hrd] at hi
      simp only [List.mem_flatMap] at hi
      obtain ⟨e, _, hie⟩ := hi
      rcases entOut_cases fs pattern fol fuel p e i hie with ⟨pathv, s, rfl⟩ | ⟨d, hid⟩
      · exact ⟨rfl, rfl⟩
      · exact ih d i hid

/-- Counterexample to claim C9 as stated: a regular file stamped
10000-01-01 is crawled and emitted, `Time.MarshalJSON` rejects the year,
line 203 discards the error, and the program prints a blank line — not a
JSON object with the seven keys. -/
theorem out_of_range_year_prints_blank_line :
    (Crawl fsBigYear none false "/r").1 = [mkPosixInfo "/r/x" statBig] ∧
    rfcYear (mkPosixInfo "/r/x" statBig).mtime = 10000 ∧
    marshalPosixInfo (mkPosixInfo "/r/x" statBig) =
      .error ("json: error calling MarshalJSON for type time.Time: " ++
        "Time.MarshalJSON: year outside of range [0,9999]") ∧
    outputResult [mkPosixInfo "/r/x" statBig] = "\n" :=
  ⟨by decide, by decide, rfl, rfl⟩

set_option maxHeartbeats 1000000 in
/-- Amended claim C9: every emitted record both of whose timestamps fall
in the RFC 3339 year range [0, 9999] serializes as one JSON object per
line with key names exactly `file_path`, `inode`, `size`, `uid`, `gid`,
`mtime`, `ctime`, in struct order, its timestamps rendered as RFC 3339
(ISO-8601) strings of UTC instants — the offset is zero and the rendering
ends in `Z`.  (A record with a year outside that range fails to marshal
and prints a blank line: `out_of_range_year_prints_blank_line`.) -/
theorem records_one_object_exact_keys_utc (fs : FS)
    (pattern : Option (String → Bool)) (fol : Bool) (root : String)
    (i : PosixInfo) (hi : i ∈ (Crawl fs pattern fol root).1)
    (hym : 0 ≤ rfcYear i.mtime ∧ rfcYear i.mtime < 10000)
    (hyc : 0 ≤ rfcYear i.ctime ∧ rfcYear i.ctime < 10000) :
    (posixInfoFields i).map Prod.fst =
      ["file_path", "inode", "size", "uid", "gid", "mtime", "ctime"] ∧
    i.mtime.offsetSec = 0 ∧ i.ctime.offsetSec = 0 ∧
    (∃ pre, formatRFC3339Nano i.mtime = pre ++ "Z") ∧
    (∃ pre, formatRFC3339Nano i.ctime = pre ++ "Z") ∧
    marshalPosixInfo i = .ok ("\x7b" ++
      goStringsJoin ((posixInfoFields i).map
        (fun kv => jsonQuote kv.1 ++ ":" ++ kv.2)) "," ++ "\x7d") ∧
    outputResult [i] = ("\x7b" ++
      goStringsJoin ((posixInfoFields i).map
        (fun kv => jsonQuote kv.1 ++ ":" ++ kv.2)) "," ++ "\x7d") ++ "\n" := by
  obtain ⟨hym1, hym2⟩ := hym
  obtain ⟨hyc1, hyc2⟩ := hyc
  have hutc := dirOut_mem_utc fs pattern fol (maxKeyLen fs + 1) root i hi
  have hz : ∀ t : GoTime, t.offsetSec = 0 →
      ∃ pre, formatRFC3339Nano t = pre ++ "Z" := by
    intro t ht
    refine ⟨String.mk (rfcBody t), ?_⟩
    rw [formatRFC3339Nano, ht]
    rfl
  have hmok : timeMarshalJSON i.mtime =
      .ok ("\"" ++ formatRFC3339Nano i.mtime ++ "\"") := by
    rw [timeMarshalJSON, if_neg]
    rintro (h | h) <;> omega
  have hcok : timeMarshalJSON i.ctime =
      .ok ("\"" ++ formatRFC3339Nano i.ctime ++ "\"") := by
    rw [timeMarshalJSON, if_neg]
    rintro (h | h) <;> omega
  have hmar : marshalPosixInfo i = .ok ("\x7b" ++
      goStringsJoin ((posixInfoFields i).map
        (fun kv => jsonQuote kv.1 ++ ":" ++ kv.2)) "," ++ "\x7d") := by
    rw [marshalPosixInfo, hmok, hcok]
  have hline : outputLine i = ("\x7b" ++
      goStringsJoin ((posixInfoFields i).map
        (fun kv => jsonQuote kv.1 ++ ":" ++ kv.2)) "," ++ "\x7d") ++ "\n" := by
    rw [outputLine, hmar]
  have hout : outputResult [i] = ("\x7b" ++
      goStringsJoin ((posixInfoFields i).map
        (fun kv => jsonQuote kv.1 ++ ":" ++ kv.2)) "," ++ "\x7d") ++ "\n" := by
    rw [outputResult]
    simp only [List.map_cons, List.map_nil, List.flatten_cons, List.flatten_nil,
      List.append_nil]
    rw [hline]
  exact ⟨rfl, hutc.1, hutc.2, hz i.mtime hutc.1, hz i.ctime hutc.2, hmar, hout⟩

/-- Witness for the amended claim C9: the record for `/r/a` (epoch
timestamps, year 1970) emitted by crawling the plain tree has the exact
key list, a UTC mtime, and its printed line is the JSON object built from
the seven fields. -/
theorem records_one_object_exact_keys_utc_witness :
    (posixInfoFields (mkPosixInfo "/r/a" stat0)).map Prod.fst =
      ["file_path", "inode", "size", "uid", "gid", "mtime", "ctime"] ∧
    (mkPosixInfo "/r/a" stat0).mtime.offsetSec = 0 ∧
    (∃ pre, formatRFC3339Nano (mkPosixInfo "/r/a" stat0).mtime = pre ++ "Z") ∧
    outputResult [mkPosixInfo "/r/a" stat0] = ("\x7b" ++
      goStringsJoin ((posixInfoFields (mkPosixInfo "/r/a" stat0)).map
        (fun kv => jsonQuote kv.1 ++ ":" ++ kv.2)) "," ++ "\x7d") ++ "\n" := by
  have h := records_one_object_exact_keys_utc fsPlain none false "/r"
    (mkPosixInfo "/r/a" stat0) (by decide) (by decide) (by decide)
  exact ⟨h.1, h.2.1, h.2.2.2.1, h.2.2.2.2.2.2⟩

/-! ### The pattern filter (claim C8) -/

/-- Filtering distributes over concatenated contributions. -/
theorem filter_flatMap {α β : Type} (l : List α) (g : α → List β) (p : β → Bool) :
    (l.flatMap g).filter p = l.flatMap (fun a => (g a).filter p) := by
  induction l with
  | nil => simp
  | cons a l ih => simp [List.filter_append, ih]

/-- One entry's contribution under a configured pattern is its
no-pattern contribution filtered by the pattern applied to the full
record path. -/
theorem entOut_pattern_filter (fs : FS) (fol : Bool) (m : String → Bool)
    (fuel : Nat) (currPath : String) (e : String × FType)
    (hdir : ∀ p, dirOut fs (some m) fol fuel p =
      (dirOut fs none fol fuel p).filter (fun r => m r.filePath)) :
    entOut fs (some m) fol fuel currPath e =
      (entOut fs none fol fuel currPath e).filter (fun r => m r.filePath) := by
  by_cases hsym : (fol && isSymlinkT e.2) = true
  · cases hres : resolveSymlinkTotal fs currPath e.1 with
    | error er => simp [entOut, crawlEntry, hsym, hres, emitErr]
    | ok r =>
      simp only [entOut, crawlEntry, hsym, hres, if_true]
      cases hr1 : r.1 with
      | dir =>
        simp only [crawlClassify]
        exact hdir (goJoin r.2.2 r.2.1)
      | regular s =>
        cases hpm : m (goJoin r.2.2 r.2.1) <;>
          simp [crawlClassify, patMatch, mkPosixInfo, hpm]
      | symlink t => simp [crawlClassify]
      | other => simp [crawlClassify]
  · simp only [entOut, crawlEntry, hsym, if_false, Bool.false_eq_true]
    cases he2 : e.2 with
    | dir =>
      simp only [crawlClassify]
      exact hdir (goJoin currPath e.1)
    | regular s =>
      cases hpm : m (goJoin currPath e.1) <;>
        simp [crawlClassify, patMatch, mkPosixInfo, hpm]
    | symlink t => simp [crawlClassify]
    | other => simp [crawlClassify]

/-- A visit's records under a configured pattern are the no-pattern
records filtered by the pattern applied to the full record path. -/
theorem dirOut_pattern_filter (fs : FS) (fol : Bool) (m : String → Bool) :
    ∀ (fuel : Nat) (p : String),
      dirOut fs (some m) fol fuel p =
        (dirOut fs none fol fuel p).filter (fun r => m r.filePath) := by
  intro fuel
  induction fuel with
  | zero => intro p; simp [dirOut, crawlDir]
  | succ fuel ih =>
    intro p
    rw [dirOut_succ, dirOut_succ]
    cases readDir fs p with
    | error e => simp
    | ok files =>
      simp only
      rw [filter_flatMap]
      congr 1
      funext e
      exact entOut_pattern_filter fs fol m fuel p e ih

/-- Claim C8: the pattern filter is applied to the full candidate path
of each record (a crawl with pattern `m` emits exactly the no-pattern
records whose full path satisfies `m`), and with no configured pattern
nothing is filtered out. -/
theorem pattern_filters_full_path (fs : FS) (fol : Bool) (root : String)
    (m : String → Bool) :
    (Crawl fs (some m) fol root).1 =
      ((Crawl fs none fol root).1).filter (fun r => m r.filePath) ∧
    (∀ q, patMatch none q = true) :=
  ⟨dirOut_pattern_filter fs fol m (maxKeyLen fs + 1) root, fun q => rfl⟩

/-! ### Exactly-once emission (claim C1): helper lemmas -/

/-- Each key's length is bounded by the folded maximum. -/
theorem foldr_max_le {l : List (String × FType)} {k : String} {t : FType}
    (h : (k, t) ∈ l) :
    k.length ≤ l.foldr (fun e m => max e.1.length m) 0 := by
  induction l with
  | nil => cases h
  | cons a l ih =>
    rcases List.mem_cons.mp h with heq | h'
    · rw [← heq]
      exact le_max_left _ _
    · exact le_trans (ih h') (le_max_right _ _)

/-- A listed path is no longer than `maxKeyLen`. -/
theorem le_maxKeyLen {fs : FS} {k : String} {t : FType}
    (h : (k, t) ∈ fs.entries) : k.length ≤ maxKeyLen fs :=
  foldr_max_le h

/-- Unpacking of filesystem well-formedness. -/
theorem wf_parts {fs : FS} {root : String} (hwf : wfFS fs root = true) :
    fs.keys.Nodup ∧ isDirKeyB fs root = true ∧
      ∀ e ∈ fs.entries, e.1 ≠ "/" →
        goJoin (goDir e.1) (goBase e.1) = e.1 ∧ (goDir e.1).length < e.1.length := by
  unfold wfFS at hwf
  simp only [Bool.and_eq_true, List.all_eq_true, Bool.or_eq_true, beq_iff_eq,
    decide_eq_true_eq] at hwf
  obtain ⟨⟨h1, h2⟩, h3⟩ := hwf
  refine ⟨h1, h2, ?_⟩
  intro e he hne
  rcases h3 e he with h | h
  · exact absurd h hne
  · exact h

/-- On a duplicate-free association list, `find?` returns the unique
entry of a present key. -/
theorem find?_eq_of_mem_nodup {l : List (String × FType)} {p : String} {t : FType}
    (hn : (l.map Prod.fst).Nodup) (h : (p, t) ∈ l) :
    l.find? (fun e => e.1 == p) = some (p, t) := by
  induction l with
  | nil => cases h
  | cons a l ih =>
    rw [List.map_cons] at hn
    have hn' := List.nodup_cons.mp hn
    rcases List.mem_cons.mp h with heq | h'
    · rw [← heq]
      exact List.find?_cons_of_pos _ (by simp)
    · by_cases hap : a.1 = p
      · exfalso
        have : p ∈ l.map Prod.fst := List.mem_map_of_mem Prod.fst h'
        exact hn'.1 (hap ▸ this)
      · rw [List.find?_cons_of_neg _ (by simpa using hap)]
        exact ih hn'.2 h'

/-- With duplicate-free keys, `lstat` of a listed entry returns its
node. -/
theorem lstat_eq_of_mem_nodup {fs : FS} {p : String} {t : FType}
    (hn : fs.keys.Nodup) (h : (p, t) ∈ fs.entries) : lstat fs p = some t := by
  unfold lstat
  rw [find?_eq_of_mem_nodup hn h]
  rfl

/-- `isDirKeyB` is exactly `lstat` returning a directory. -/
theorem isDirKeyB_iff {fs : FS} {p : String} :
    isDirKeyB fs p = true ↔ lstat fs p = some .dir := by
  unfold isDirKeyB
  cases h : lstat fs p with
  | none => simp
  | some fi => cases fi <;> simp

/-- `filepath.Dir` fixes the root path. -/
theorem goDir_slash : goDir "/" = "/" := by decide

/-- The fuelled ancestor walk is fuel-independent above the path
length. -/
theorem reachDirF_stable (fs : FS) (root : String) :
    ∀ (f g : Nat) (d : String), d.length < f → d.length < g →
      reachDirF fs root f d = reachDirF fs root g d := by
  intro f
  induction f with
  | zero => intro g d hf _; omega
  | succ f ih =>
    intro g d hf hg
    cases g with
    | zero => omega
    | succ g =>
      simp only [reachDirF]
      by_cases hd : (goDir d).length < d.length
      · rw [ih g (goDir d) (by omega) (by omega)]
      · simp [hd]

/-- One-step unfolding of the ancestor walk at its canonical fuel. -/
theorem reachDirB_unfold (fs : FS) (root : String) (d : String) :
    reachDirB fs root d =
      (d == root || (isDirKeyB fs d && decide ((goDir d).length < d.length) &&
        reachDirB fs root (goDir d))) := by
  rw [reachDirB, reachDirF]
  by_cases hd : (goDir d).length < d.length
  · rw [reachDirF_stable fs root d.length ((goDir d).length + 1) (goDir d) hd
      (by omega)]
    rfl
  · simp [hd]

/-- The walk accepts its own root. -/
theorem reachDirB_refl (fs : FS) (root : String) : reachDirB fs root root = true := by
  rw [reachDirB, reachDirF]
  simp

/-- Walking up to `root` cannot lengthen the path. -/
theorem reachDirF_length_le (fs : FS) (root : String) :
    ∀ (f : Nat) (d : String), reachDirF fs root f d = true → root.length ≤ d.length := by
  intro f
  induction f with
  | zero =>
    intro d h
    simp only [reachDirF, beq_iff_eq] at h
    rw [h]
  | succ f ih =>
    intro d h
    simp only [reachDirF, Bool.or_eq_true, Bool.and_eq_true, beq_iff_eq,
      decide_eq_true_eq] at h
    rcases h with h | ⟨⟨_, hlen⟩, hrec⟩
    · rw [h]
    · have := ih (goDir d) hrec
      omega

/-- Same bound, at the canonical fuel. -/
theorem reachDirB_le {fs : FS} {root d : String} (h : reachDirB fs root d = true) :
    root.length ≤ d.length :=
  reachDirF_length_le fs root (d.length + 1) d h

/-- Extending an ancestor walk through one more directory edge: if the
walk from a child `c` of `p` accepts `d`, the walk from `p` accepts `d`
as well. -/
theorem reachDirB_extend (fs : FS) (p c : String)
    (hck : isDirKeyB fs c = true) (hcp : goDir c = p) (hlen : p.length < c.length) :
    ∀ (N : Nat) (d : String), d.length < N →
      reachDirB fs c d = true → reachDirB fs p d = true := by
  intro N
  induction N with
  | zero => intro d h; omega
  | succ N ih =>
    intro d hdN hcd
    by_cases hdp : d = p
    · rw [hdp]
      exact reachDirB_refl fs p
    · rw [reachDirB_unfold] at hcd
      simp only [Bool.or_eq_true, Bool.and_eq_true, beq_iff_eq,
        decide_eq_true_eq] at hcd
      rcases hcd with rfl | ⟨⟨hdk, hdlen⟩, hrec⟩
      · rw [reachDirB_unfold]
        have hrefl : reachDirB fs p (goDir d) = true := hcp ▸ reachDirB_refl fs p
        have hguard : (goDir d).length < d.length := by rw [hcp]; exact hlen
        simp [hck, hguard, hrefl]
      · have := ih (goDir d) (by omega) hrec
        rw [reachDirB_unfold]
        simp [hdk, hdlen, this]

/-- The directory edge through which an ancestor walk leaves `p` is
unique: a walk from `p` that accepts `d ≠ p` passes through exactly one
directory child `c` of `p`. -/
theorem reachDirB_unique_child (fs : FS) (p : String)
    (hkey : ∀ k, isDirKeyB fs k = true → k ≠ "/" → (goDir k).length < k.length) :
    ∀ (N : Nat) (d : String), d.length < N → reachDirB fs p d = true → d ≠ p →
      ∃ c, isDirKeyB fs c = true ∧ goDir c = p ∧ c ≠ p ∧ reachDirB fs c d = true ∧
        ∀ c', isDirKeyB fs c' = true → goDir c' = p → c' ≠ p →
          reachDirB fs c' d = true → c' = c := by
  intro N
  induction N with
  | zero => intro d h; omega
  | succ N ih =>
    intro d hdN hpd hdp
    rw [reachDirB_unfold] at hpd
    simp only [Bool.or_eq_true, Bool.and_eq_true, beq_iff_eq,
      decide_eq_true_eq] at hpd
    rcases hpd with h | ⟨⟨hdk, hdlen⟩, hrec⟩
    · exact absurd h hdp
    by_cases hgd : goDir d = p
    · refine ⟨d, hdk, hgd, hdp, reachDirB_refl fs d, ?_⟩
      intro c' hc'k hc'p hc'ne hc'd
      rw [reachDirB_unfold] at hc'd
      simp only [Bool.or_eq_true, Bool.and_eq_true, beq_iff_eq,
        decide_eq_true_eq] at hc'd
      rcases hc'd with h | ⟨_, hrec2⟩
      · exact h.symm
      · exfalso
        rw [hgd] at hrec2
        have h1 : c'.length ≤ p.length := reachDirB_le hrec2
        have hc'root : c' ≠ "/" := by
          intro hroot
          rw [hroot, goDir_slash] at hc'p
          exact hc'ne (hroot.trans hc'p)
        have h2 : p.length < c'.length := by
          have := hkey c' hc'k hc'root
          rw [hc'p] at this
          exact this
        omega
    · obtain ⟨c, hck, hcp, hcne, hcd, huniq⟩ := ih (goDir d) (by omega) hrec hgd
      have hdc : d ≠ c := by
        intro hdceq
        exact hgd (hdceq ▸ hcp)
      refine ⟨c, hck, hcp, hcne, ?_, ?_⟩
      · rw [reachDirB_unfold]
        simp [hdk, hdlen, hcd]
      · intro c' hc'k hc'p hc'ne hc'd
        rw [reachDirB_unfold] at hc'd
        simp only [Bool.or_eq_true, Bool.and_eq_true, beq_iff_eq,
          decide_eq_true_eq] at hc'd
        rcases hc'd with h | ⟨_, hrec2⟩
        · exact absurd (h ▸ hc'p) hgd
        · exact huniq c' hc'k hc'p hc'ne hrec2

/-- Concatenated contributions with indicator counts sum to the entry
count. -/
theorem flatMap_countP_of_indicator {α : Type} (l : List α)
    (g : α → List PosixInfo) (pr : PosixInfo → Bool) (cb : α → Bool)
    (h : ∀ a ∈ l, (g a).countP pr = if cb a then 1 else 0) :
    (l.flatMap g).countP pr = l.countP cb := by
  induction l with
  | nil => simp
  | cons a l ih =>
    rw [List.flatMap_cons, List.countP_append, h a (by simp),
      List.countP_cons, ih (fun x hx => h x (by simp [hx]))]
    by_cases hcb : cb a = true <;> simp [hcb] <;> omega

/-- A duplicate-free list with exactly one element satisfying a
predicate counts it once. -/
theorem countP_eq_one_unique {α : Type} {l : List α} {cb : α → Bool} {c : α}
    (hnod : l.Nodup) (hc : c ∈ l) (hcb : cb c = true)
    (huniq : ∀ x ∈ l, cb x = true → x = c) : l.countP cb = 1 := by
  induction l with
  | nil => cases hc
  | cons a l ih =>
    have hna := List.nodup_cons.mp hnod
    rw [List.countP_cons]
    rcases List.mem_cons.mp hc with heq | hcl
    · have h0 : l.countP cb = 0 := by
        rw [List.countP_eq_zero]
        intro x hx hpx
        have hxc := huniq x (by simp [hx]) hpx
        exact hna.1 ((hxc.trans heq) ▸ hx)
      have hcba : cb a = true := by rw [← heq]; exact hcb
      rw [h0, hcba]
      simp
    · have hcba : cb a = false := by
        cases hcba : cb a
        · rfl
        · exfalso
          have := huniq a (by simp) hcba
          exact hna.1 (this ▸ hcl)
      rw [ih hna.2 hcl (fun x hx hpx => huniq x (by simp [hx]) hpx), hcba]
      simp

/-- Concatenation over a mapped list. -/
theorem flatMap_map_comp {α β γ : Type} (l : List α) (f : α → β) (g : β → List γ) :
    (l.map f).flatMap g = l.flatMap (fun a => g (f a)) := by
  induction l with
  | nil => rfl
  | cons a l ih => simp [ih]

/-- The count of records for path `q` in one directory visit of a
well-formed, symlink-free (or link-following-disabled) tree: exactly one
when `q` is a matching regular file whose parent chain of directories
reaches `p`, zero otherwise. -/
theorem dirOut_count (fs : FS) (root : String) (pattern : Option (String → Bool))
    (fol : Bool) (q : String)
    (hwf : wfFS fs root = true)
    (hsym : fol = false ∨ noSymlinksB fs = true) :
    ∀ (fuel : Nat) (p : String), isDirKeyB fs p = true →
      maxKeyLen fs + 1 ≤ fuel + p.length →
      (dirOut fs pattern fol fuel p).countP (fun r => r.filePath == q) =
        if isRegMatchB fs pattern q && reachDirB fs p (goDir q) then 1 else 0 := by
  obtain ⟨hnodup, _, hcoh⟩ := wf_parts hwf
  have hentsnodup : fs.entries.Nodup := List.Nodup.of_map Prod.fst hnodup
  have hkeylen : ∀ k, isDirKeyB fs k = true → k ≠ "/" → (goDir k).length < k.length := by
    intro k hk hkr
    exact (hcoh (k, .dir) (lstat_some_entry_mem (isDirKeyB_iff.mp hk)) hkr).2
  intro fuel
  induction fuel with
  | zero =>
    intro p hp hlen
    have := le_maxKeyLen (lstat_some_entry_mem (isDirKeyB_iff.mp hp))
    omega
  | succ fuel ih =>
    intro p hp hlen
    rw [dirOut_succ]
    have hrd : readDir fs p = .ok ((fs.entries.filter
        (fun e => goDir e.1 == p && e.1 != p)).map (fun e => (goBase e.1, e.2))) := by
      unfold readDir
      rw [isDirKeyB_iff.mp hp]
    rw [hrd]
    simp only
    rw [flatMap_map_comp]
    have hfiltmem : ∀ e ∈ fs.entries.filter (fun e => goDir e.1 == p && e.1 != p),
        e ∈ fs.entries ∧ goDir e.1 = p ∧ e.1 ≠ p := by
      intro e he
      obtain ⟨h1, h2⟩ := List.mem_filter.mp he
      simp only [Bool.and_eq_true, beq_iff_eq, bne_iff_ne] at h2
      exact ⟨h1, h2.1, h2.2⟩
    have hind : ∀ e ∈ fs.entries.filter (fun e => goDir e.1 == p && e.1 != p),
        (entOut fs pattern fol fuel p (goBase e.1, e.2)).countP
            (fun r => r.filePath == q) =
          if childContrib fs pattern q e then 1 else 0 := by
      intro e he
      obtain ⟨hee, hgd, hnep⟩ := hfiltmem e he
      have heslash : e.1 ≠ "/" := by
        intro hr
        rw [hr, goDir_slash] at hgd
        exact hnep (hr.trans hgd)
      have hrb : goJoin p (goBase e.1) = e.1 := by
        have h := (hcoh e hee heslash).1
        rw [hgd] at h
        exact h
      cases he2 : e.2 with
      | dir =>
        have hent : entOut fs pattern fol fuel p (goBase e.1, FType.dir) =
            dirOut fs pattern fol fuel e.1 := by
          simp [entOut, crawlEntry, isSymlinkT, crawlClassify, hrb, dirOut]
        have hedir : (e.1, FType.dir) ∈ fs.entries := by
          rw [← he2]
          exact hee
        have hdk : isDirKeyB fs e.1 = true :=
          isDirKeyB_iff.mpr (lstat_eq_of_mem_nodup hnodup hedir)
        have hlen2 : maxKeyLen fs + 1 ≤ fuel + e.1.length := by
          have h1 := (hcoh e hee heslash).2
          rw [hgd] at h1
          omega
        rw [hent, ih e.1 hdk hlen2]
        simp [childContrib, he2]
      | regular s =>
        have hent : entOut fs pattern fol fuel p (goBase e.1, FType.regular s) =
            if patMatch pattern e.1 then [mkPosixInfo e.1 s] else [] := by
          cases hpm : patMatch pattern e.1 <;>
            simp [entOut, crawlEntry, isSymlinkT, crawlClassify, hrb, hpm]
        rw [hent]
        have hereg : (e.1, FType.regular s) ∈ fs.entries := by
          rw [← he2]
          exact hee
        have hlq : lstat fs e.1 = some (FType.regular s) :=
          lstat_eq_of_mem_nodup hnodup hereg
        by_cases hq : e.1 = q
        · rw [hq] at hlq
          have hregq : isRegMatchB fs pattern q = patMatch pattern q := by
            unfold isRegMatchB
            rw [hlq]
            simp
          rw [hq]
          cases hpm : patMatch pattern q <;>
            simp [childContrib, he2, hq, List.countP_cons, mkPosixInfo, hregq, hpm]
        · cases hpm : patMatch pattern e.1 <;>
            simp [childContrib, he2, List.countP_cons, mkPosixInfo, hpm, hq]
      | symlink t =>
        rcases hsym with hf | hns
        · rw [hf]
          simp [childContrib, he2, entOut, crawlEntry, isSymlinkT, crawlClassify]
        · exfalso
          have hall := (List.all_eq_true.mp hns) e hee
          rw [he2] at hall
          simp [isSymlinkT] at hall
      | other =>
        simp [childContrib, he2, entOut, crawlEntry, isSymlinkT, crawlClassify]
    rw [flatMap_countP_of_indicator _ _ _ (childContrib fs pattern q) hind]
    cases hregB : isRegMatchB fs pattern q with
    | false =>
      rw [List.countP_eq_zero.mpr (fun x _ => by simp [childContrib, hregB])]
      simp [hregB]
    | true =>
      obtain ⟨sq, hlq⟩ : ∃ sq, lstat fs q = some (FType.regular sq) := by
        unfold isRegMatchB at hregB
        rw [Bool.and_eq_true] at hregB
        cases hlq : lstat fs q with
        | none => rw [hlq] at hregB; simp at hregB
        | some fi =>
          cases fi with
          | regular sq => exact ⟨sq, rfl⟩
          | dir => rw [hlq] at hregB; simp at hregB
          | symlink t => rw [hlq] at hregB; simp at hregB
          | other => rw [hlq] at hregB; simp at hregB
      have hfiltnodup : (fs.entries.filter
          (fun e => goDir e.1 == p && e.1 != p)).Nodup :=
        (List.filter_sublist fs.entries).nodup hentsnodup
      cases hrB : reachDirB fs p (goDir q) with
      | true =>
        simp only [hregB, hrB, Bool.and_self, if_true]
        by_cases hqp : goDir q = p
        · have hqne : q ≠ p := by
            intro hqpe
            have hpd := isDirKeyB_iff.mp hp
            rw [← hqpe, hlq] at hpd
            cases hpd
          have hqmem : (q, FType.regular sq) ∈ fs.entries.filter
              (fun e => goDir e.1 == p && e.1 != p) := by
            rw [List.mem_filter]
            refine ⟨lstat_some_entry_mem hlq, ?_⟩
            simp [hqp, hqne]
          refine countP_eq_one_unique hfiltnodup hqmem
            (by simp [childContrib, hregB]) ?_
          intro x hx hcbx
          obtain ⟨hxe, hxgd, hxne⟩ := hfiltmem x hx
          cases hx2 : x.2 with
          | regular s2 =>
            simp only [childContrib, hx2, Bool.and_eq_true, beq_iff_eq] at hcbx
            have hx1q : x.1 = q := hcbx.2
            have hxs : lstat fs x.1 = some (FType.regular s2) :=
              lstat_eq_of_mem_nodup hnodup (by rw [← hx2]; exact hxe)
            rw [hx1q, hlq] at hxs
            have hseq : FType.regular sq = FType.regular s2 :=
              Option.some.inj hxs
            have hxeta : x = (x.1, x.2) := rfl
            rw [hxeta, hx1q, hx2, ← hseq]
          | dir =>
            exfalso
            simp only [childContrib, hx2, Bool.and_eq_true] at hcbx
            have hreach : reachDirB fs x.1 (goDir q) = true := hcbx.2
            rw [hqp] at hreach
            have h1 : x.1.length ≤ p.length := reachDirB_le hreach
            have hxslash : x.1 ≠ "/" := by
              intro hr
              rw [hr, goDir_slash] at hxgd
              exact hxne (hr.trans hxgd)
            have h2 := (hcoh x hxe hxslash).2
            rw [hxgd] at h2
            omega
          | symlink t => simp [childContrib, hx2] at hcbx
          | other => simp [childContrib, hx2] at hcbx
        · obtain ⟨c, hck, hcp, hcne, hcd, huniq⟩ :=
            reachDirB_unique_child fs p hkeylen ((goDir q).length + 1) (goDir q)
              (by omega) hrB hqp
          have hcmem : (c, FType.dir) ∈ fs.entries.filter
              (fun e => goDir e.1 == p && e.1 != p) := by
            rw [List.mem_filter]
            refine ⟨lstat_some_entry_mem (isDirKeyB_iff.mp hck), ?_⟩
            simp [hcp, hcne]
          refine countP_eq_one_unique hfiltnodup hcmem
            (by simp [childContrib, hregB, hcd]) ?_
          intro x hx hcbx
          obtain ⟨hxe, hxgd, hxne⟩ := hfiltmem x hx
          cases hx2 : x.2 with
          | regular s2 =>
            exfalso
            simp only [childContrib, hx2, Bool.and_eq_true, beq_iff_eq] at hcbx
            have hx1q : x.1 = q := hcbx.2
            rw [hx1q] at hxgd
            exact hqp hxgd
          | dir =>
            simp only [childContrib, hx2, Bool.and_eq_true] at hcbx
            have hxk : isDirKeyB fs x.1 = true :=
              isDirKeyB_iff.mpr (lstat_eq_of_mem_nodup hnodup (by rw [← hx2]; exact hxe))
            have hx1c : x.1 = c := huniq x.1 hxk hxgd hxne hcbx.2
            have hxeta : x = (x.1, x.2) := rfl
            rw [hxeta, hx1c, hx2]
          | symlink t => simp [childContrib, hx2] at hcbx
          | other => simp [childContrib, hx2] at hcbx
      | false =>
        have hzero : ∀ x ∈ fs.entries.filter (fun e => goDir e.1 == p && e.1 != p),
            ¬childContrib fs pattern q x = true := by
          intro x hx hcbx
          obtain ⟨hxe, hxgd, hxne⟩ := hfiltmem x hx
          cases hx2 : x.2 with
          | regular s2 =>
            simp only [childContrib, hx2, Bool.and_eq_true, beq_iff_eq] at hcbx
            have hx1q : x.1 = q := hcbx.2
            rw [hx1q] at hxgd
            rw [← hxgd] at hrB
            rw [reachDirB_refl fs (goDir q)] at hrB
            cases hrB
          | dir =>
            simp only [childContrib, hx2, Bool.and_eq_true] at hcbx
            have hxk : isDirKeyB fs x.1 = true :=
              isDirKeyB_iff.mpr (lstat_eq_of_mem_nodup hnodup (by rw [← hx2]; exact hxe))
            have hxslash : x.1 ≠ "/" := by
              intro hr
              rw [hr, goDir_slash] at hxgd
              exact hxne (hr.trans hxgd)
            have hplen : p.length < x.1.length := by
              have h2 := (hcoh x hxe hxslash).2
              rw [hxgd] at h2
              exact h2
            have hext := reachDirB_extend fs p x.1 hxk hxgd hplen
              ((goDir q).length + 1) (goDir q) (by omega) hcbx.2
            rw [hext] at hrB
            cases hrB
          | symlink t => simp [childContrib, hx2] at hcbx
          | other => simp [childContrib, hx2] at hcbx
        rw [List.countP_eq_zero.mpr hzero]
        simp [hrB]

/-- Amended claim C1: on a well-formed tree, when link-following is
disabled or the tree contains no symlinks, each regular file reachable
from the root (its parent chain all listed directories) whose full path
matches the pattern is emitted as a record exactly once per run — never
zero times and never more than once — and nothing else is emitted for
that path.  (The claim's link-following clause is refuted by
`file_emitted_twice_via_symlink_alias`: with link-following enabled a
file reachable both directly and through a symlink is emitted once per
directory entry that resolves to it.) -/
theorem crawl_emits_each_reachable_file_once (fs : FS) (root : String)
    (pattern : Option (String → Bool)) (fol : Bool) (q : String)
    (hwf : wfFS fs root = true)
    (hsym : fol = false ∨ noSymlinksB fs = true) :
    ((Crawl fs pattern fol root).1).countP (fun r => r.filePath == q) =
      if isRegMatchB fs pattern q && reachDirB fs root (goDir q) then 1 else 0 := by
  have hroot := (wf_parts hwf).2.1
  exact dirOut_count fs root pattern fol q hwf hsym (maxKeyLen fs + 1) root hroot
    (by omega)

/-- Witness for the amended claim C1: in the symlink-free tree, the
nested matching file `/r/d/b` is emitted exactly once and the absent
path `/r/missing` not at all. -/
theorem crawl_emits_each_reachable_file_once_witness :
    wfFS fsPlain "/r" = true ∧
    ((Crawl fsPlain none false "/r").1).countP (fun r => r.filePath == "/r/d/b") = 1 ∧
    ((Crawl fsPlain none false "/r").1).countP
      (fun r => r.filePath == "/r/missing") = 0 := by
  refine ⟨by decide, ?_, ?_⟩
  · rw [crawl_emits_each_reachable_file_once fsPlain "/r" none false "/r/d/b"
      (by decide) (Or.inl rfl)]
    decide
  · rw [crawl_emits_each_reachable_file_once fsPlain "/r" none false "/r/missing"
      (by decide) (Or.inl rfl)]
    decide

/-- Counterexample to claim C1 as stated: with link-following enabled,
the regular file `/r/a` — reachable from the root without crossing any
symlink and matching the (absent) pattern — is emitted twice, because the
sibling symlink `/r/l -> a` resolves to the same file and `crawlDir`
emits once per directory entry (lines 91-141) with no cross-entry
deduplication. -/
theorem file_emitted_twice_via_symlink_alias :
    isRegMatchB fsAlias none "/r/a" = true ∧
    reachDirB fsAlias "/r" (goDir "/r/a") = true ∧
    ((Crawl fsAlias none true "/r").1).countP (fun r => r.filePath == "/r/a") = 2 :=
  ⟨by decide, by decide, by decide⟩

end Crawler
